import Mathlib

/-!
Verification of the omakure core against its specification.

This file gives a shallow embedding, in Lean 4, of the pure core of the
omakure program (a terminal script catalog / form runner written in Rust),
and proves or refutes the spec's claims about it.

Modelling conventions:
* Rust `&str` / `String` become Lean `String`; character-level processing is
  done on `String.data : List Char`.  Rust's ASCII helpers
  (`to_ascii_lowercase`, `is_ascii_alphanumeric`) coincide with Lean's
  `Char.toLower` / `Char.isAlphanum`; full Unicode case mapping
  (`str::to_lowercase`) is modelled by the same ASCII mapping, which agrees
  with the source on all ASCII text.
* Rust `i64` becomes `Int` (the embedded arithmetic stays far from the
  64-bit boundaries on every input considered here); `/` on `i64` is
  `Int.tdiv`, `div_euclid` / `rem_euclid` are `Int.ediv` / `Int.emod`.
* Fallible Rust functions (`Result`, panics) become `Except` / `Option`.
* File systems are finite association lists from file name to file data;
  `serde_json` (an external crate) is modelled abstractly: serialization is
  an injection into a file-data type, deserialization its partial inverse.
-/

deriving instance DecidableEq for Except

namespace Omakure

/-! ## Character groundwork

`Char.toLower` in Lean core maps the ASCII range A-Z to a-z and leaves
everything else unchanged - exactly Rust's `to_ascii_lowercase`. We prove
the arithmetic characterization once and derive the facts used later.
-/

theorem char_toNat_ofNat_valid (n : Nat) (h : n.isValidChar) :
    (Char.ofNat n).toNat = n := by
  rw [Char.ofNat, dif_pos h]
  rfl

theorem toLower_toNat (c : Char) :
    (Char.toLower c).toNat =
      if 65 ≤ c.toNat ∧ c.toNat ≤ 90 then c.toNat + 32 else c.toNat := by
  unfold Char.toLower
  by_cases h : 65 ≤ c.toNat ∧ c.toNat ≤ 90
  · rw [if_pos ⟨h.1, h.2⟩, if_pos h]
    exact char_toNat_ofNat_valid _ (Or.inl (by omega))
  · rw [if_neg h, if_neg h]

theorem toLower_eq_self_of_not_upper (c : Char)
    (h : ¬(65 ≤ c.toNat ∧ c.toNat ≤ 90)) : Char.toLower c = c := by
  rw [Char.toLower, if_neg h]

theorem toLower_toLower (c : Char) :
    Char.toLower (Char.toLower c) = Char.toLower c := by
  apply toLower_eq_self_of_not_upper
  rw [toLower_toNat]
  by_cases h : 65 ≤ c.toNat ∧ c.toNat ≤ 90
  · rw [if_pos h]; omega
  · rw [if_neg h]; exact h

theorem isAlphanum_iff (c : Char) :
    c.isAlphanum = true ↔
      (65 ≤ c.toNat ∧ c.toNat ≤ 90) ∨ (97 ≤ c.toNat ∧ c.toNat ≤ 122) ∨
        (48 ≤ c.toNat ∧ c.toNat ≤ 57) := by
  simp only [Char.isAlphanum, Char.isAlpha, Char.isUpper, Char.isLower,
    Char.isDigit, Bool.or_eq_true, decide_eq_true_eq, Bool.and_eq_true,
    ge_iff_le, UInt32.le_def, BitVec.le_def,
    show (UInt32.toBitVec 65).toNat = 65 from rfl,
    show (UInt32.toBitVec 90).toNat = 90 from rfl,
    show (UInt32.toBitVec 97).toNat = 97 from rfl,
    show (UInt32.toBitVec 122).toNat = 122 from rfl,
    show (UInt32.toBitVec 48).toNat = 48 from rfl,
    show (UInt32.toBitVec 57).toNat = 57 from rfl]
  have hc : c.val.toBitVec.toNat = c.toNat := rfl
  rw [hc]
  tauto

/-- Lowercasing a string character-by-character; Rust's
`str::to_ascii_lowercase`, and the model of `str::to_lowercase` (they agree
on ASCII text, which is all the relevant source feeds them). -/
def ascii_lower (s : String) : String :=
  String.mk (s.data.map Char.toLower)

theorem ascii_lower_idem (s : String) :
    ascii_lower (ascii_lower s) = ascii_lower s := by
  simp [ascii_lower, List.map_map, Function.comp_def, toLower_toLower]

/-! ## `src/domain/mod.rs`: schema data model and input normalization -/

/-- `Field` from `src/domain/mod.rs` (serde-renamed PascalCase keys;
`Type` maps to `kind`, `Order` is a `u32`). -/
structure Field where
  name : String
  prompt : Option String
  kind : String
  order : Nat
  required : Option Bool
  default : Option String
  choices : Option (List String)
  arg : Option String
  deriving DecidableEq, Repr

/-- `Schema` from `src/domain/mod.rs`. -/
structure Schema where
  name : String
  description : Option String
  tags : Option (List String)
  fields : List Field
  deriving DecidableEq, Repr

/-- `str::trim` modelled character-wise: drop whitespace from both ends
(`Char.isWhitespace` is the ASCII fragment of Rust's Unicode
`char::is_whitespace`; all inputs the claims exercise are ASCII). -/
def trim_chars (l : List Char) : List Char :=
  ((l.dropWhile Char.isWhitespace).reverse.dropWhile Char.isWhitespace).reverse

def rust_trim (s : String) : String :=
  String.mk (trim_chars s.data)

/-- `parse_bool` from `src/domain/mod.rs`: case-insensitive truthy/falsy
tokens. -/
def parse_bool (input : String) : Option Bool :=
  match ascii_lower (rust_trim input) with
  | "true" | "t" | "yes" | "y" | "1" => some true
  | "false" | "f" | "no" | "n" | "0" => some false
  | _ => none

/-- Syntactic validity of a `f64` literal per Rust's `f64::from_str` grammar:
`Sign? ( 'inf' | 'infinity' | 'nan' | Number )` where `Number` is
`Digits '.'? Digits? Exp?` or `'.' Digits Exp?` and
`Exp` is `('e'|'E') Sign? Digits`.  `raw.parse::<f64>()` succeeds exactly on
this grammar (overflow yields infinity, not an error). -/
def f64_digits (l : List Char) : Bool :=
  !l.isEmpty && l.all (·.isDigit)

def f64_split_exp (l : List Char) : List Char × Option (List Char) :=
  match l.findIdx? (fun c => c = 'e' ∨ c = 'E') with
  | none => (l, none)
  | some i => (l.take i, some (l.drop (i + 1)))

def f64_mantissa (l : List Char) : Bool :=
  match l.findIdx? (fun c => c = '.') with
  | none => f64_digits l
  | some i =>
    let intPart := l.take i
    let fracPart := l.drop (i + 1)
    if intPart.isEmpty then f64_digits fracPart
    else f64_digits intPart && (fracPart.isEmpty || f64_digits fracPart)

def f64_exp (l : List Char) : Bool :=
  match l with
  | c :: rest => if c = '+' ∨ c = '-' then f64_digits rest else f64_digits l
  | [] => false

def parse_f64_ok (s : String) : Bool :=
  let l := match s.data with
    | c :: rest => if c = '+' ∨ c = '-' then rest else s.data
    | [] => []
  let low := l.map Char.toLower
  if low = "inf".data ∨ low = "infinity".data ∨ low = "nan".data then true
  else
    match f64_split_exp l with
    | (mant, none) => f64_mantissa mant
    | (mant, some e) => f64_mantissa mant && f64_exp e

/-- The choices check and type check that `normalize_input` applies to the
non-empty raw value (the tail of `src/domain/mod.rs` lines 107-127). -/
def normalize_value (field : Field) (raw : String) : Except String (Option String) :=
  match field.choices with
  | some cs =>
    if cs.contains raw then normalize_kind field raw
    else .error ("Allowed values: " ++ String.intercalate ", " cs)
  | none => normalize_kind field raw
where
  normalize_kind (field : Field) (raw : String) : Except String (Option String) :=
    match ascii_lower field.kind with
    | "string" => .ok (some raw)
    | "number" =>
      if parse_f64_ok raw then .ok (some raw) else .error "Enter a valid number"
    | "bool" | "boolean" =>
      match parse_bool raw with
      | some b => .ok (some (if b then "true" else "false"))
      | none => .error "Enter true/false (or yes/no)"
    | _ => .ok (some raw)

/-- `normalize_input` from `src/domain/mod.rs`: trim, then resolve the raw
value (default / required / omit on empty), then choices and type checks. -/
def normalize_input (field : Field) (input : String) : Except String (Option String) :=
  let trimmed := rust_trim input
  let required := field.required.getD false
  if trimmed = "" then
    match field.default with
    | some d => normalize_value field d
    | none => if required then .error "Value required" else .ok none
  else normalize_value field trimmed

/-! ## Claim C3: `normalize_input` on input that trims to empty -/

/-- A bool-typed optional field whose declared default is the truthy word
"yes" rather than a canonical boolean literal. -/
def c3_field : Field := ⟨"flag", none, "bool", 1, some false, some "yes", none, none⟩

/-- C3 counterexample: the claim says an empty input "returns that default
value", but the code routes the default through the type check, so the
default "yes" of a bool field comes back as "true", not "yes". -/
theorem c3_counterexample :
    normalize_input c3_field "" = .ok (some "true") ∧
    normalize_input c3_field "" ≠ .ok (some "yes") := by decide

/-- C3 (amended): on input that trims to empty, `normalize_input` uses the
declared default when present, subjecting it to the same choices and type
normalization as typed input (so a plain string field returns it verbatim);
with no default it fails with "Value required" when the field is required
and returns the omit outcome otherwise. -/
theorem c3_normalize_empty (field : Field) (input : String) (h : rust_trim input = "") :
    (∀ d, field.default = some d → normalize_input field input = normalize_value field d) ∧
    (field.default = none → field.required.getD false = true →
      normalize_input field input = .error "Value required") ∧
    (field.default = none → field.required.getD false = false →
      normalize_input field input = .ok none) ∧
    (∀ d, field.default = some d → field.choices = none →
      ascii_lower field.kind = "string" → normalize_input field input = .ok (some d)) := by
  have hni : normalize_input field input =
      (match field.default with
       | some d => normalize_value field d
       | none =>
         if field.required.getD false then .error "Value required" else .ok none) := by
    unfold normalize_input
    rw [h]
    simp
  refine ⟨?_, ?_, ?_, ?_⟩
  · intro d hd
    rw [hni, hd]
  · intro hd hr
    rw [hni, hd]
    simp [hr]
  · intro hd hr
    rw [hni, hd]
    simp [hr]
  · intro d hd hc hk
    rw [hni, hd]
    simp only [normalize_value, normalize_value.normalize_kind, hc, hk]

def c3w_required : Field := ⟨"name", none, "string", 1, some true, none, none, none⟩
def c3w_optional : Field := ⟨"name", none, "string", 1, some false, none, none, none⟩
def c3w_defaulted : Field :=
  ⟨"name", none, "string", 1, some false, some "default_value", none, none⟩

/-- Witness for C3's amended theorem at concrete fields. -/
theorem c3_normalize_empty_witness :
    normalize_input c3w_required "  " = .error "Value required" ∧
    normalize_input c3w_optional "  " = .ok none ∧
    normalize_input c3w_defaulted "  " = .ok (some "default_value") :=
  ⟨(c3_normalize_empty c3w_required "  " (by decide)).2.1 rfl rfl,
   (c3_normalize_empty c3w_optional "  " (by decide)).2.2.1 rfl rfl,
   (c3_normalize_empty c3w_defaulted "  " (by decide)).2.2.2 "default_value" rfl rfl
     (by decide)⟩

/-! ## Claim C2: form submission (`submit_form` + `load_schema` sort) -/

/-- The argument name used by `submit_form` in
`src/adapters/tui/app.rs`: the declared `Arg` when present, else `--` plus
the field name exactly as declared (the source does not lowercase it). -/
def arg_name (field : Field) : String := field.arg.getD ("--" ++ field.name)

/-- `submit_form`'s loop from `src/adapters/tui/app.rs` lines 472-492:
normalize each field against its input buffer (missing buffers read as ""),
abort on the first failure with the failing index and "name: message",
otherwise collect name/value token pairs. -/
def submit_go (inputs : List String) : List Field → Nat → Except (Nat × String) (List String)
  | [], _ => .ok []
  | f :: fs, idx =>
    match normalize_input f (inputs.getD idx "") with
    | .error msg => .error (idx, f.name ++ ": " ++ msg)
    | .ok none => submit_go inputs fs (idx + 1)
    | .ok (some v) =>
      match submit_go inputs fs (idx + 1) with
      | .error e => .error e
      | .ok rest => .ok (arg_name f :: v :: rest)

/-- `load_schema`'s `schema.fields.sort_by_key(|field| field.order)`
(stable insertion sort by `order`). -/
def insert_by_order (f : Field) : List Field → List Field
  | [] => [f]
  | g :: gs => if f.order < g.order then f :: g :: gs else g :: insert_by_order f gs

def sort_fields : List Field → List Field
  | [] => []
  | f :: fs => insert_by_order f (sort_fields fs)

/-- Form submission pipeline: `load_schema` sorts the schema's fields by
`Order`, `build_field_inputs` aligns one buffer per sorted field, and
`submit_form` walks them in that order. -/
def submit_schema (schema : Schema) (inputs : List String) :
    Except (Nat × String) (List String) :=
  submit_go inputs (sort_fields schema.fields) 0

/-- Spec-side argument list: each field whose normalized value is not
omitted contributes exactly the two consecutive tokens (argument name,
value), fields taken in list order. -/
def form_args (inputs : List String) : List Field → Nat → List String
  | [], _ => []
  | f :: fs, idx =>
    (match normalize_input f (inputs.getD idx "") with
     | .ok (some v) => [arg_name f, v]
     | _ => []) ++ form_args inputs fs (idx + 1)

theorem submit_go_ok (inputs : List String) :
    ∀ (fields : List Field) (idx : Nat),
      (∀ k (hk : k < fields.length),
        (normalize_input (fields.get ⟨k, hk⟩) (inputs.getD (idx + k) "")).isOk = true) →
      submit_go inputs fields idx = .ok (form_args inputs fields idx) := by
  intro fields
  induction fields with
  | nil => intro idx _; rfl
  | cons f fs ih =>
    intro idx h
    have h0 : (normalize_input f (inputs.getD idx "")).isOk = true := by
      simpa using h 0 (by simp)
    have hrec : submit_go inputs fs (idx + 1) = .ok (form_args inputs fs (idx + 1)) := by
      refine ih (idx + 1) (fun k hk => ?_)
      have hk' : k + 1 < (f :: fs).length := by simpa using Nat.succ_lt_succ hk
      have := h (k + 1) hk'
      simpa [Nat.add_right_comm, Nat.add_assoc] using this
    unfold submit_go form_args
    cases hn : normalize_input f (inputs.getD idx "") with
    | error msg => rw [hn] at h0; simp [Except.isOk, Except.toBool] at h0
    | ok v =>
      cases v with
      | none => simpa using hrec
      | some w => simp [hrec]

theorem perm_insert_by_order (f : Field) (l : List Field) :
    (insert_by_order f l).Perm (f :: l) := by
  induction l with
  | nil => exact List.Perm.refl _
  | cons g gs ih =>
    unfold insert_by_order
    by_cases h : f.order < g.order
    · rw [if_pos h]
    · rw [if_neg h]
      exact ((ih.cons g).trans (List.Perm.swap f g gs))

theorem perm_sort_fields (l : List Field) : (sort_fields l).Perm l := by
  induction l with
  | nil => exact List.Perm.refl _
  | cons f fs ih =>
    exact (perm_insert_by_order f (sort_fields fs)).trans (ih.cons f)

theorem pairwise_insert_by_order (f : Field) (l : List Field)
    (h : l.Pairwise (fun a b => a.order ≤ b.order)) :
    (insert_by_order f l).Pairwise (fun a b => a.order ≤ b.order) := by
  induction l with
  | nil => simp [insert_by_order]
  | cons g gs ih =>
    rcases List.pairwise_cons.mp h with ⟨hg, hgs⟩
    unfold insert_by_order
    by_cases hfg : f.order < g.order
    · rw [if_pos hfg]
      refine List.pairwise_cons.mpr ⟨?_, h⟩
      intro x hx
      rcases List.mem_cons.mp hx with rfl | hx
      · exact Nat.le_of_lt hfg
      · exact Nat.le_trans (Nat.le_of_lt hfg) (hg x hx)
    · rw [if_neg hfg]
      refine List.pairwise_cons.mpr ⟨?_, ih hgs⟩
      intro x hx
      rcases List.mem_cons.mp ((perm_insert_by_order f gs).mem_iff.mp hx) with rfl | hx
      · exact Nat.le_of_not_lt hfg
      · exact hg x hx

theorem pairwise_sort_fields (l : List Field) :
    (sort_fields l).Pairwise (fun a b => a.order ≤ b.order) := by
  induction l with
  | nil => simp [sort_fields]
  | cons f fs ih => exact pairwise_insert_by_order f (sort_fields fs) ih

/-- The scenario schema of the claim:
`{Name:"cleanup", Fields:[{Name:"force", Type:"bool", Required:false}]}`. -/
def cleanup_schema : Schema :=
  ⟨"cleanup", none, none, [⟨"force", none, "bool", 1, some false, none, none, none⟩]⟩

/-- A schema identical to the scenario's except that the field is declared
with an uppercase letter in its name. -/
def c2_schema : Schema :=
  ⟨"cleanup", none, none, [⟨"Force", none, "bool", 1, some false, none, none, none⟩]⟩

/-- C2 counterexample: the claim says the defaulted argument name is `--`
plus the LOWERCASED field name, but `submit_form` uses the field name as
declared: a field named "Force" yields "--Force", not "--force". -/
theorem c2_counterexample :
    submit_schema c2_schema ["yes"] = .ok ["--Force", "true"] ∧
    submit_schema c2_schema ["yes"] ≠ .ok ["--force", "true"] ∧
    "--force" = "--" ++ ascii_lower "Force" := by decide

/-- C2 (amended): when every field of the order-sorted schema normalizes
successfully, submission yields exactly the concatenation, in ascending
field order, of the two tokens (argument name, value) for each non-omitted
field, where the argument name is the declared `Arg` when present and `--`
plus the field name AS DECLARED otherwise; the sorted field list is ordered
by `Order` and is a permutation of the schema's fields.  In particular the
scenario schema yields `["--force","true"]` for input "yes" and `[]` for
input "". -/
theorem c2_submit_form (schema : Schema) (inputs : List String)
    (h : ∀ k (hk : k < (sort_fields schema.fields).length),
      (normalize_input ((sort_fields schema.fields).get ⟨k, hk⟩)
        (inputs.getD k "")).isOk = true) :
    submit_schema schema inputs = .ok (form_args inputs (sort_fields schema.fields) 0) ∧
    (sort_fields schema.fields).Pairwise (fun a b => a.order ≤ b.order) ∧
    (sort_fields schema.fields).Perm schema.fields ∧
    submit_schema cleanup_schema ["yes"] = .ok ["--force", "true"] ∧
    submit_schema cleanup_schema [""] = .ok [] := by
  refine ⟨?_, pairwise_sort_fields _, perm_sort_fields _, by decide, by decide⟩
  exact submit_go_ok inputs (sort_fields schema.fields) 0 (by simpa using h)

/-- Witness for C2's amended theorem at the scenario schema. -/
theorem c2_submit_form_witness :
    submit_schema cleanup_schema ["yes"] =
      .ok (form_args ["yes"] (sort_fields cleanup_schema.fields) 0) ∧
    (sort_fields cleanup_schema.fields).Pairwise (fun a b => a.order ≤ b.order) ∧
    (sort_fields cleanup_schema.fields).Perm cleanup_schema.fields ∧
    submit_schema cleanup_schema ["yes"] = .ok ["--force", "true"] ∧
    submit_schema cleanup_schema [""] = .ok [] :=
  c2_submit_form cleanup_schema ["yes"] (by decide)

/-! ## Claim C4: `format_timestamp` in `src/history.rs` -/

/-- `civil_from_days` from `src/history.rs`: the era/century-aware
days-to-civil-date transform.  Rust `/` on `i64` is `Int.tdiv`. -/
def civil_from_days (days : Int) : Int × Int × Int :=
  let z := days + 719468
  let era := (if z ≥ 0 then z else z - 146096).tdiv 146097
  let doe := z - era * 146097
  let yoe := (doe - doe.tdiv 1460 + doe.tdiv 36524 - doe.tdiv 146096).tdiv 365
  let y := yoe + era * 400
  let doy := doe - (365 * yoe + yoe.tdiv 4 - yoe.tdiv 100)
  let mp := (5 * doy + 2).tdiv 153
  let day := doy - (153 * mp + 2).tdiv 5 + 1
  let month := mp + (if mp < 10 then 3 else -9)
  let year := y + (if month ≤ 2 then 1 else 0)
  (year, month, day)

/-- Zero-padded decimal rendering of the nonnegative quantities that
`format!("{:02}")` / `{:04}` receive in `format_timestamp`. -/
def pad_num (width : Nat) (n : Int) : String :=
  let s := toString n.toNat
  if s.length < width then String.mk (List.replicate (width - s.length) '0') ++ s else s

/-- `format_timestamp` from `src/history.rs`: clamp negatives to zero,
split into days plus seconds-of-day (`div_euclid` / `rem_euclid` are
`Int.ediv` / `Int.emod`), convert days with `civil_from_days`, and render
`YYYY-MM-DD HH:MM`. -/
def format_timestamp (timestamp_ms : Int) : String :=
  let ms := if timestamp_ms < 0 then 0 else timestamp_ms
  let seconds := ms.tdiv 1000
  let days := seconds.ediv 86400
  let seconds_of_day := seconds.emod 86400
  let hour := seconds_of_day.tdiv 3600
  let minute := (seconds_of_day.tmod 3600).tdiv 60
  let ymd := civil_from_days days
  pad_num 4 ymd.1 ++ "-" ++ pad_num 2 ymd.2.1 ++ "-" ++ pad_num 2 ymd.2.2 ++ " " ++
    pad_num 2 hour ++ ":" ++ pad_num 2 minute

theorem civil_from_days_leap : civil_from_days 19782 = (2024, 2, 29) := by decide

/-- C4: epoch renders as `1970-01-01 00:00`, one day later as
`1970-01-02 00:00`, and every millisecond timestamp within civil day
2024-02-29 (the leap day) renders with that date part. -/
theorem c4_format_timestamp :
    format_timestamp 0 = "1970-01-01 00:00" ∧
    format_timestamp 86400000 = "1970-01-02 00:00" ∧
    ∀ ms : Int, 1709164800000 ≤ ms → ms < 1709251200000 →
      ∃ rest, format_timestamp ms = "2024-02-29 " ++ rest := by
  refine ⟨by decide, by decide, fun ms hlo hhi => ?_⟩
  have hms0 : ¬ ms < 0 := by omega
  have hdays : (ms.tdiv 1000).ediv 86400 = 19782 := by
    rw [Int.tdiv_eq_ediv (by omega) (by omega)]
    show (ms / 1000) / 86400 = 19782
    omega
  have hexp : format_timestamp ms =
      pad_num 4 (civil_from_days ((ms.tdiv 1000).ediv 86400)).1 ++ "-" ++
      pad_num 2 (civil_from_days ((ms.tdiv 1000).ediv 86400)).2.1 ++ "-" ++
      pad_num 2 (civil_from_days ((ms.tdiv 1000).ediv 86400)).2.2 ++ " " ++
      pad_num 2 (((ms.tdiv 1000).emod 86400).tdiv 3600) ++ ":" ++
      pad_num 2 ((((ms.tdiv 1000).emod 86400).tmod 3600).tdiv 60) := by
    unfold format_timestamp
    rw [if_neg hms0]
  refine ⟨pad_num 2 (((ms.tdiv 1000).emod 86400).tdiv 3600) ++ ":" ++
    pad_num 2 ((((ms.tdiv 1000).emod 86400).tmod 3600).tdiv 60), ?_⟩
  rw [hexp, hdays, civil_from_days_leap]
  show "2024" ++ "-" ++ "02" ++ "-" ++ "29" ++ " " ++ _ ++ ":" ++ _ = _
  apply String.ext
  simp [String.data_append]

/-- Witness for C4 at a concrete leap-day timestamp. -/
theorem c4_format_timestamp_witness :
    ∃ rest, format_timestamp 1709200000000 = "2024-02-29 " ++ rest :=
  c4_format_timestamp.2.2 1709200000000 (by omega) (by omega)

/-! ## `src/history.rs`: data model, slugs, file names -/

/-- `HistoryEntry` from `src/history.rs` (`PathBuf` stored as its string
rendering). -/
structure HistoryEntry where
  timestamp : Int
  script : String
  args : List String
  success : Bool
  exit_code : Option Int
  stdout : String
  stderr : String
  error : Option String
  deriving DecidableEq, Repr

/-- The character loop of `safe_slug`: ASCII alphanumerics are pushed
lowercased; any run of other characters collapses to one underscore
(`prev` is the `prev_underscore` flag). -/
def collapse_chars : List Char → Bool → List Char
  | [], _ => []
  | c :: cs, prev =>
    if c.isAlphanum then Char.toLower c :: collapse_chars cs false
    else if prev then collapse_chars cs prev
    else '_' :: collapse_chars cs true

/-- `trim_matches('_')`: drop underscores from both ends. -/
def trim_underscores (l : List Char) : List Char :=
  ((l.dropWhile (· == '_')).reverse.dropWhile (· == '_')).reverse

/-- `safe_slug` before the 64-byte truncation: collapse, trim edge
underscores, default to "run" when empty. -/
def slug_pre (s : String) : List Char :=
  let t := trim_underscores (collapse_chars s.data false)
  if t.isEmpty then "run".data else t

def byte_len (l : List Char) : Nat := (l.map Char.utf8Size).sum

/-- Byte-faithful prefix extraction: `some` prefix of exactly `limit`
bytes when the limit falls on a character boundary, `none` when it would
split a character (Rust's `String::truncate` panics there). -/
def take_bytes : Nat → List Char → Option (List Char)
  | 0, _ => some []
  | _ + 1, [] => none
  | limit, c :: cs =>
    if c.utf8Size ≤ limit then (take_bytes (limit - c.utf8Size) cs).map (c :: ·)
    else none

/-- Byte-faithful model of `safe_slug`'s `slug.truncate(64)`: `none` is a
panic. -/
def safe_slug_checked (s : String) : Option String :=
  let slug := slug_pre s
  if byte_len slug ≤ 64 then some (String.mk slug)
  else (take_bytes 64 slug).map String.mk

/-- Executable `safe_slug`; C9's theorem proves it agrees with
`safe_slug_checked` (the slug is pure ASCII, so the byte cut is a char
cut). -/
def safe_slug (s : String) : String := String.mk ((slug_pre s).take 64)

/-- `history_file_name`: `{timestamp}-{pid}-{slug}.json` (the process id is
a parameter; it is constant within one process). -/
def history_file_name (pid : String) (e : HistoryEntry) : String :=
  toString e.timestamp ++ "-" ++ pid ++ "-" ++ safe_slug e.script ++ ".json"

def history_file_name_checked (pid : String) (e : HistoryEntry) : Option String :=
  (safe_slug_checked e.script).map
    (fun slug => toString e.timestamp ++ "-" ++ pid ++ "-" ++ slug ++ ".json")

/-! ### C9 supporting lemmas -/

/-- The character classes a slug may contain. -/
def is_slug_char (c : Char) : Prop :=
  (97 ≤ c.toNat ∧ c.toNat ≤ 122) ∨ (48 ≤ c.toNat ∧ c.toNat ≤ 57) ∨ c = '_'

theorem toLower_alnum (c : Char) (h : c.isAlphanum = true) :
    (97 ≤ (Char.toLower c).toNat ∧ (Char.toLower c).toNat ≤ 122) ∨
      (48 ≤ (Char.toLower c).toNat ∧ (Char.toLower c).toNat ≤ 57) := by
  rw [toLower_toNat]
  rcases (isAlphanum_iff c).mp h with h' | h' | h'
  · rw [if_pos (by omega)]
    omega
  · rw [if_neg (by omega)]
    omega
  · rw [if_neg (by omega)]
    omega

theorem collapse_chars_mem (l : List Char) (prev : Bool) :
    ∀ c ∈ collapse_chars l prev, is_slug_char c := by
  induction l generalizing prev with
  | nil => intro c hc; cases hc
  | cons x xs ih =>
    intro c hc
    unfold collapse_chars at hc
    by_cases hx : x.isAlphanum = true
    · rw [if_pos hx] at hc
      rcases List.mem_cons.mp hc with rfl | hc
      · rcases toLower_alnum x hx with h | h
        · exact Or.inl h
        · exact Or.inr (Or.inl h)
      · exact ih false c hc
    · rw [if_neg hx] at hc
      by_cases hp : prev
      · rw [if_pos hp] at hc
        exact ih prev c hc
      · rw [if_neg hp] at hc
        rcases List.mem_cons.mp hc with rfl | hc
        · exact Or.inr (Or.inr rfl)
        · exact ih true c hc

instance (c : Char) : Decidable (is_slug_char c) := by
  unfold is_slug_char
  infer_instance

theorem collapse_chars_chain (l : List Char) (prev : Bool) :
    (collapse_chars l prev).Chain' (fun a b => ¬(a = '_' ∧ b = '_')) ∧
      (prev = true → (collapse_chars l prev).head? ≠ some '_') := by
  induction l generalizing prev with
  | nil => exact ⟨List.chain'_nil, fun _ => by simp [collapse_chars]⟩
  | cons x xs ih =>
    unfold collapse_chars
    by_cases hx : x.isAlphanum = true
    · rw [if_pos hx]
      have hlow : Char.toLower x ≠ '_' := by
        rcases toLower_alnum x hx with h | h <;>
          exact fun he => by rw [he] at h; exact absurd h (by decide)
      refine ⟨List.chain'_cons'.mpr ⟨?_, (ih false).1⟩, fun _ => ?_⟩
      · exact fun y _ hco => hlow hco.1
      · simp [hlow]
    · rw [if_neg hx]
      by_cases hp : prev = true
      · rw [if_pos hp]
        exact ⟨(ih prev).1, fun _ => hp ▸ (ih prev).2 hp⟩
      · rw [if_neg hp]
        refine ⟨List.chain'_cons'.mpr ⟨?_, (ih true).1⟩, fun hpt => absurd hpt hp⟩
        intro y hy hco
        exact (ih true).2 rfl (by rw [hy, hco.2])

theorem prefix_head_ne (l₁ l₂ : List Char) (h : l₁ <+: l₂)
    (hne : l₂.head? ≠ some '_') : l₁.head? ≠ some '_' := by
  rcases h with ⟨t, rfl⟩
  cases l₁ with
  | nil => simp
  | cons a as => simpa using hne

theorem trim_underscores_prefix_dropWhile (l : List Char) :
    trim_underscores l <+: l.dropWhile (· == '_') := by
  unfold trim_underscores
  conv => rhs; rw [← List.reverse_reverse (l.dropWhile (· == '_'))]
  exact List.reverse_prefix.mpr (List.dropWhile_suffix _)

theorem trim_underscores_subset (l : List Char) : trim_underscores l ⊆ l :=
  fun _ hc =>
    (List.dropWhile_suffix _).sublist.subset
      ((trim_underscores_prefix_dropWhile l).sublist.subset hc)

theorem trim_underscores_head (l : List Char) :
    (trim_underscores l).head? ≠ some '_' := by
  have hd : (l.dropWhile (· == '_')).head? ≠ some '_' := by
    have hm := List.head?_dropWhile_not (· == '_') l
    cases hh : (l.dropWhile (· == '_')).head? with
    | none => simp
    | some x =>
      rw [hh] at hm
      simp only at hm
      intro hcon
      rw [Option.some_inj.mp hcon] at hm
      simp at hm
  exact prefix_head_ne _ _ (trim_underscores_prefix_dropWhile l) hd

theorem chain'_of_suffix {R : Char → Char → Prop} {l₁ l₂ : List Char}
    (h : l₂.Chain' R) (hs : l₁ <:+ l₂) : l₁.Chain' R := by
  rcases hs with ⟨t, rfl⟩
  exact (List.chain'_append.mp h).2.1

theorem chain'_no_dd_reverse (l : List Char)
    (h : l.Chain' (fun a b => ¬(a = '_' ∧ b = '_'))) :
    l.reverse.Chain' (fun a b => ¬(a = '_' ∧ b = '_')) := by
  rw [List.chain'_reverse]
  exact h.imp (fun a b hab hc => hab ⟨hc.2, hc.1⟩)

theorem trim_underscores_chain (l : List Char)
    (h : l.Chain' (fun a b => ¬(a = '_' ∧ b = '_'))) :
    (trim_underscores l).Chain' (fun a b => ¬(a = '_' ∧ b = '_')) := by
  unfold trim_underscores
  apply chain'_no_dd_reverse
  apply chain'_of_suffix _ (List.dropWhile_suffix _)
  apply chain'_no_dd_reverse
  exact chain'_of_suffix h (List.dropWhile_suffix _)

theorem slug_pre_props (s : String) :
    slug_pre s ≠ [] ∧ (∀ c ∈ slug_pre s, is_slug_char c) ∧
      (slug_pre s).Chain' (fun a b => ¬(a = '_' ∧ b = '_')) ∧
      (slug_pre s).head? ≠ some '_' := by
  unfold slug_pre
  by_cases h : (trim_underscores (collapse_chars s.data false)).isEmpty = true
  · rw [if_pos h]
    refine ⟨by decide, by decide, ?_, by decide⟩
    rw [show "run".data = ['r', 'u', 'n'] from rfl]
    exact List.chain'_cons.mpr ⟨by decide, List.chain'_cons.mpr ⟨by decide, List.chain'_singleton _⟩⟩
  · rw [if_neg h]
    refine ⟨fun hc => h (by simp [hc]), ?_, ?_, trim_underscores_head _⟩
    · exact fun c hc =>
        collapse_chars_mem s.data false c (trim_underscores_subset _ hc)
    · exact trim_underscores_chain _ (collapse_chars_chain s.data false).1

theorem utf8Size_one_of_slug (c : Char) (h : is_slug_char c) :
    c.utf8Size = 1 := by
  have hlt : c.toNat < 128 := by
    rcases h with h | h | h
    · omega
    · omega
    · rw [h]; decide
  unfold Char.utf8Size
  rw [if_pos]
  rw [UInt32.le_def, BitVec.le_def]
  show c.toNat ≤ 127
  omega

theorem byte_len_eq_length (l : List Char)
    (h : ∀ c ∈ l, Char.utf8Size c = 1) : byte_len l = l.length := by
  induction l with
  | nil => rfl
  | cons c cs ih =>
    have hc := h c (List.mem_cons_self c cs)
    have ih' := ih (fun x hx => h x (List.mem_cons_of_mem c hx))
    simp only [byte_len, List.map_cons, List.sum_cons, List.length_cons] at ih' ⊢
    omega

theorem take_bytes_all_ascii (l : List Char) :
    ∀ n : Nat, (∀ c ∈ l, Char.utf8Size c = 1) → n ≤ l.length →
      take_bytes n l = some (l.take n) := by
  induction l with
  | nil =>
    intro n _ hn
    have : n = 0 := by simpa using hn
    subst this
    rfl
  | cons c cs ih =>
    intro n h hn
    cases n with
    | zero => rfl
    | succ m =>
      have hc : c.utf8Size = 1 := h c (List.mem_cons_self c cs)
      have hrec := ih m (fun x hx => h x (List.mem_cons_of_mem c hx))
        (by simpa using hn)
      simp only [take_bytes, hc]
      rw [if_pos (by omega)]
      simp [hrec, List.take_succ_cons]

theorem safe_slug_data_ne_nil (s : String) : (safe_slug s).data ≠ [] := by
  show (slug_pre s).take 64 ≠ []
  rcases hsp : slug_pre s with _ | ⟨c, t⟩
  · exact absurd hsp (slug_pre_props s).1
  · simp [List.take_succ_cons]

theorem safe_slug_checked_eq (s : String) :
    safe_slug_checked s = some (safe_slug s) := by
  have hall : ∀ c ∈ slug_pre s, Char.utf8Size c = 1 := fun c hc =>
    utf8Size_one_of_slug c ((slug_pre_props s).2.1 c hc)
  have hlen := byte_len_eq_length _ hall
  unfold safe_slug_checked safe_slug
  by_cases h : byte_len (slug_pre s) ≤ 64
  · rw [if_pos h, List.take_of_length_le (by omega)]
  · rw [if_neg h, take_bytes_all_ascii _ 64 hall (by omega)]
    rfl

/-- C9: `safe_slug` always yields a non-empty slug of at most 64 bytes made
only of ASCII lowercase alphanumerics and underscores, with no doubled and
no leading underscore; its byte-level 64-truncation falls on a character
boundary (`safe_slug_checked` is never `none`, i.e. `String::truncate`
cannot panic), and consequently `history_file_name` never panics. -/
theorem c9_safe_slug (s pid : String) (e : HistoryEntry) :
    safe_slug_checked s = some (safe_slug s) ∧
    safe_slug s ≠ "" ∧
    (safe_slug s).data.length ≤ 64 ∧
    byte_len (safe_slug s).data ≤ 64 ∧
    (∀ c ∈ (safe_slug s).data, is_slug_char c) ∧
    (safe_slug s).data.Chain' (fun a b => ¬(a = '_' ∧ b = '_')) ∧
    (safe_slug s).data.head? ≠ some '_' ∧
    history_file_name_checked pid e = some (history_file_name pid e) := by
  have hmem : ∀ c ∈ (safe_slug s).data, is_slug_char c := fun c hc =>
    (slug_pre_props s).2.1 c (List.take_subset 64 _ hc)
  refine ⟨safe_slug_checked_eq s, ?_, ?_, ?_, hmem, ?_, ?_, ?_⟩
  · exact fun hc => safe_slug_data_ne_nil s (congrArg String.data hc)
  · show ((slug_pre s).take 64).length ≤ 64
    rw [List.length_take]
    exact Nat.min_le_left _ _
  · rw [byte_len_eq_length _ (fun c hc => utf8Size_one_of_slug c (hmem c hc))]
    show ((slug_pre s).take 64).length ≤ 64
    rw [List.length_take]
    exact Nat.min_le_left _ _
  · exact List.Chain'.take (slug_pre_props s).2.2.1 64
  · rcases hsp : slug_pre s with _ | ⟨c, t⟩
    · exact absurd hsp (slug_pre_props s).1
    · have hh := (slug_pre_props s).2.2.2
      rw [hsp] at hh
      show ((slug_pre s).take 64).head? ≠ some '_'
      rw [hsp]
      simpa [List.take_succ_cons] using hh
  · unfold history_file_name_checked history_file_name
    rw [safe_slug_checked_eq e.script]
    rfl

/-! ## Claim C5: history persistence round trip (`record_entry` / `load_entries`) -/

/-- Contents of one file in the history directory.  `serde_json` is an
external crate, modelled abstractly: `entry e` is the serialization of `e`
(`serde_json::to_vec_pretty` is injective), `raw` is any other readable
contents (on which `serde_json::from_slice` fails), `unreadable` a file
`fs::read` cannot read. -/
inductive FileData where
  | entry (e : HistoryEntry)
  | raw (s : String)
  | unreadable
  deriving DecidableEq

/-- `fs::write`: replace the contents at an existing path, else create. -/
def write_file : List (String × FileData) → String → FileData → List (String × FileData)
  | [], n, d => [(n, d)]
  | (m, x) :: fs, n, d => if m = n then (n, d) :: fs else (m, x) :: write_file fs n d

/-- `record_entry` from `src/history.rs`: serialize the entry into the file
named `history_file_name`. -/
def record_entry (pid : String) (fs : List (String × FileData)) (e : HistoryEntry) :
    List (String × FileData) :=
  write_file fs (history_file_name pid e) (.entry e)

def record_all (pid : String) (es : List HistoryEntry) : List (String × FileData) :=
  es.foldl (record_entry pid) []

/-- `path.extension() == Some("json")`: the name ends in `.json` and has a
nonempty stem in front of it. -/
def has_json_ext (name : String) : Bool :=
  ".json".data.isSuffixOf name.data && decide (6 ≤ name.data.length)

/-- `serde_json::from_slice::<HistoryEntry>` composed with `fs::read`. -/
def read_history_file : FileData → Option HistoryEntry
  | .entry e => some e
  | .raw _ => none
  | .unreadable => none

/-- `entries.sort_by(|a, b| b.timestamp.cmp(&a.timestamp))`: sort by
timestamp descending (insertion sort). -/
def insert_desc (e : HistoryEntry) : List HistoryEntry → List HistoryEntry
  | [] => [e]
  | x :: xs => if x.timestamp ≤ e.timestamp then e :: x :: xs else x :: insert_desc e xs

def sort_desc : List HistoryEntry → List HistoryEntry
  | [] => []
  | e :: es => insert_desc e (sort_desc es)

/-- `load_entries` from `src/history.rs`: keep the readable `.json` files
that deserialize (silently skipping the rest), sorted by timestamp
descending.  Every directory entry in the model is a plain file. -/
def load_entries (fs : List (String × FileData)) : List HistoryEntry :=
  sort_desc (fs.filterMap
    (fun f => if has_json_ext f.1 then read_history_file f.2 else none))

theorem perm_insert_desc (e : HistoryEntry) (l : List HistoryEntry) :
    (insert_desc e l).Perm (e :: l) := by
  induction l with
  | nil => exact List.Perm.refl _
  | cons x xs ih =>
    unfold insert_desc
    by_cases h : x.timestamp ≤ e.timestamp
    · rw [if_pos h]
    · rw [if_neg h]
      exact (ih.cons x).trans (List.Perm.swap e x xs)

theorem perm_sort_desc (l : List HistoryEntry) : (sort_desc l).Perm l := by
  induction l with
  | nil => exact List.Perm.refl _
  | cons e es ih => exact (perm_insert_desc e (sort_desc es)).trans (ih.cons e)

theorem pairwise_insert_desc (e : HistoryEntry) (l : List HistoryEntry)
    (h : l.Pairwise (fun a b => b.timestamp ≤ a.timestamp)) :
    (insert_desc e l).Pairwise (fun a b => b.timestamp ≤ a.timestamp) := by
  induction l with
  | nil => simp [insert_desc]
  | cons x xs ih =>
    rcases List.pairwise_cons.mp h with ⟨hx, hxs⟩
    unfold insert_desc
    by_cases hxe : x.timestamp ≤ e.timestamp
    · rw [if_pos hxe]
      refine List.pairwise_cons.mpr ⟨?_, h⟩
      intro y hy
      rcases List.mem_cons.mp hy with rfl | hy
      · exact hxe
      · exact Int.le_trans (hx y hy) hxe
    · rw [if_neg hxe]
      refine List.pairwise_cons.mpr ⟨?_, ih hxs⟩
      intro y hy
      rcases List.mem_cons.mp ((perm_insert_desc e xs).mem_iff.mp hy) with rfl | hy
      · exact Int.le_of_lt (Int.lt_of_not_ge hxe)
      · exact hx y hy

theorem pairwise_sort_desc (l : List HistoryEntry) :
    (sort_desc l).Pairwise (fun a b => b.timestamp ≤ a.timestamp) := by
  induction l with
  | nil => simp [sort_desc]
  | cons e es ih => exact pairwise_insert_desc e (sort_desc es) ih

theorem write_file_fresh (fs : List (String × FileData)) (n : String) (d : FileData)
    (h : ∀ p ∈ fs, p.1 ≠ n) : write_file fs n d = fs ++ [(n, d)] := by
  induction fs with
  | nil => rfl
  | cons p ps ih =>
    unfold write_file
    rw [if_neg (h p (List.mem_cons_self p ps))]
    rw [ih (fun q hq => h q (List.mem_cons_of_mem p hq))]
    rfl

theorem record_fold (pid : String) :
    ∀ (es : List HistoryEntry) (fs : List (String × FileData)),
      (es.map (history_file_name pid)).Nodup →
      (∀ e ∈ es, ∀ p ∈ fs, p.1 ≠ history_file_name pid e) →
      es.foldl (record_entry pid) fs =
        fs ++ es.map (fun e => (history_file_name pid e, FileData.entry e)) := by
  intro es
  induction es with
  | nil => intro fs _ _; simp
  | cons e es ih =>
    intro fs hnd hfresh
    rw [List.map_cons] at hnd
    rcases List.nodup_cons.mp hnd with ⟨hne, hnd'⟩
    have h1 : record_entry pid fs e = fs ++ [(history_file_name pid e, .entry e)] :=
      write_file_fresh _ _ _
        (fun p hp => hfresh e (List.mem_cons_self e es) p hp)
    have h2 : ∀ e' ∈ es, ∀ p ∈ fs ++ [(history_file_name pid e, FileData.entry e)],
        p.1 ≠ history_file_name pid e' := by
      intro e' he' p hp
      rcases List.mem_append.mp hp with hp | hp
      · exact hfresh e' (List.mem_cons_of_mem e he') p hp
      · rcases List.mem_singleton.mp hp with rfl
        intro hcon
        have hcon' : history_file_name pid e = history_file_name pid e' := hcon
        exact hne (by rw [hcon']; exact List.mem_map_of_mem (history_file_name pid) he')
    simp only [List.foldl_cons, h1]
    rw [ih _ hnd' h2, List.append_assoc]
    rfl

theorem has_json_ext_file_name (pid : String) (e : HistoryEntry) :
    has_json_ext (history_file_name pid e) = true := by
  unfold has_json_ext history_file_name
  rw [Bool.and_eq_true]
  constructor
  · rw [List.isSuffixOf_iff_suffix]
    simp only [String.data_append]
    exact (List.suffix_append _ _)
  · rw [decide_eq_true_iff]
    simp [String.data_append]
    have h1 : 1 ≤ (safe_slug e.script).data.length :=
      List.length_pos.mpr (safe_slug_data_ne_nil e.script)
    omega

theorem filterMap_records (pid : String) (es : List HistoryEntry) :
    (es.map (fun e => (history_file_name pid e, FileData.entry e))).filterMap
        (fun f => if has_json_ext f.1 then read_history_file f.2 else none) = es := by
  induction es with
  | nil => rfl
  | cons e es ih =>
    rw [List.map_cons, List.filterMap_cons, if_pos (has_json_ext_file_name pid e)]
    show e :: _ = e :: es
    rw [ih]

/-- An entry that collides with itself: recording it twice under one
process id writes the same file name twice. -/
def c5_entry : HistoryEntry := ⟨1000, "deploy.sh", [], true, some 0, "", "", none⟩

/-- C5 counterexample: the claim quantifies over every list of N entries,
but two entries sharing timestamp and script path produce the same history
file name, so the second write overwrites the first and loading returns 1
entry, not 2. -/
theorem c5_counterexample :
    (load_entries (record_all "42" [c5_entry, c5_entry])).length = 1 ∧
    ([c5_entry, c5_entry].length = 2) := by decide

/-- C5 (amended): when the recorded entries have pairwise distinct history
file names (in particular whenever their timestamps are distinct),
persisting them into an empty directory and loading returns exactly N
entries, field-for-field the ones persisted (a permutation), sorted by
timestamp descending; and a file that is unreadable, or readable but not
parseable as an entry, is skipped without affecting the rest. -/
theorem c5_history_round_trip (pid : String) (es : List HistoryEntry)
    (h : (es.map (history_file_name pid)).Nodup) :
    (load_entries (record_all pid es)).length = es.length ∧
    (load_entries (record_all pid es)).Perm es ∧
    (load_entries (record_all pid es)).Pairwise
      (fun a b => b.timestamp ≤ a.timestamp) ∧
    (∀ (name s : String) (fs : List (String × FileData)),
      load_entries ((name, FileData.raw s) :: fs) = load_entries fs ∧
      load_entries ((name, FileData.unreadable) :: fs) = load_entries fs) := by
  have hrec : record_all pid es =
      es.map (fun e => (history_file_name pid e, FileData.entry e)) :=
    record_fold pid es [] h (by intro _ _ p hp; cases hp)
  have hload : load_entries (record_all pid es) = sort_desc es := by
    unfold load_entries
    rw [hrec, filterMap_records]
  have hperm : (load_entries (record_all pid es)).Perm es := by
    rw [hload]; exact perm_sort_desc es
  refine ⟨hperm.length_eq, hperm, ?_, ?_⟩
  · rw [hload]; exact pairwise_sort_desc es
  · intro name s fs
    constructor <;>
      · unfold load_entries
        simp only [List.filterMap_cons, read_history_file]
        cases has_json_ext name <;> simp

/-- Witness for C5's amended theorem: two distinct-timestamp entries load
back in descending order. -/
def c5_e1 : HistoryEntry := ⟨1000, "a.sh", [], true, some 0, "", "", none⟩
def c5_e2 : HistoryEntry := ⟨2000, "b.sh", ["--x"], false, none, "", "", some "boom"⟩

theorem c5_history_round_trip_witness :
    (load_entries (record_all "42" [c5_e1, c5_e2])).length = 2 ∧
    (load_entries (record_all "42" [c5_e1, c5_e2])).Perm [c5_e1, c5_e2] ∧
    (load_entries (record_all "42" [c5_e1, c5_e2])).Pairwise
      (fun a b => b.timestamp ≤ a.timestamp) ∧
    (∀ (name s : String) (fs : List (String × FileData)),
      load_entries ((name, FileData.raw s) :: fs) = load_entries fs ∧
      load_entries ((name, FileData.unreadable) :: fs) = load_entries fs) :=
  c5_history_round_trip "42" [c5_e1, c5_e2] (by decide)

/-! ## Claim C7: `extract_schema_block` (`src/domain/mod.rs`) -/

/-- `strip_comment_prefix` from `src/domain/mod.rs`: trim leading
whitespace, strip the first matching comment marker, then one following
space if present.  Marker lengths are counted in characters, which agrees
with the source's byte count for the ASCII markers in use. -/
def strip_comment_head (markers : List String) (line : String) : Option String :=
  let t := line.data.dropWhile Char.isWhitespace
  match markers.find? (fun m => m.data.isPrefixOf t) with
  | some m =>
    let r := t.drop m.data.length
    some (String.mk (if r.head? = some ' ' then r.tail else r))
  | none => none

/-- Buffer accumulation inside the block: newline-join, except that the
very first piece lands in the empty buffer without a newline. -/
def push_buffer (buffer piece : String) : String :=
  if buffer = "" then piece else buffer ++ "\n" ++ piece

def fold_buffer (buffer : String) (pieces : List String) : String :=
  pieces.foldl push_buffer buffer

/-- The scan loop of `extract_schema_block` over the file's lines: `idx` is
the 0-based line index of `enumerate`, `inBlock` / `buffer` the loop
state. -/
def extract_go (markers : List String) :
    List String → Nat → Bool → String → Except String String
  | [], _, _, _ => .error "Schema block not found"
  | line :: rest, idx, inBlock, buffer =>
    match strip_comment_head markers line with
    | some commented =>
      if inBlock = false ∧ rust_trim commented = "OMAKURE_SCHEMA_START" then
        extract_go markers rest (idx + 1) true buffer
      else if inBlock = true ∧ rust_trim commented = "OMAKURE_SCHEMA_END" then
        if rust_trim buffer = "" then .error "Schema block is empty" else .ok buffer
      else if inBlock = true then
        extract_go markers rest (idx + 1) inBlock (push_buffer buffer commented)
      else extract_go markers rest (idx + 1) inBlock buffer
    | none =>
      if inBlock = true then
        if rust_trim line = "" then extract_go markers rest (idx + 1) inBlock buffer
        else
          .error ("Schema block line missing comment prefix at line " ++ toString (idx + 1))
      else extract_go markers rest (idx + 1) inBlock buffer

def extract_schema_lines (markers : List String) (lines : List String) :
    Except String String :=
  extract_go markers lines 0 false ""

/-- `str::lines`: split on newline; the char-level splitter. -/
def split_lines : List Char → List (List Char)
  | [] => [[]]
  | c :: cs =>
    if c = '\n' then [] :: split_lines cs
    else
      match split_lines cs with
      | [] => [[c]]
      | l :: ls => (c :: l) :: ls

/-- `str::lines`: no trailing empty line for a trailing newline, and a
trailing `\r` is stripped from each line. -/
def rust_lines (s : String) : List String :=
  match s.data with
  | [] => []
  | l =>
    let parts := split_lines l
    let parts := if parts.getLast? = some [] then parts.dropLast else parts
    parts.map (fun cs => String.mk (if cs.getLast? = some '\r' then cs.dropLast else cs))

/-- `extract_schema_block(contents, prefixes)`. -/
def extract_schema_block (contents : String) (markers : List String) :
    Except String String :=
  extract_go markers (rust_lines contents) 0 false ""

/-- The line opens a block: it strips to the start sentinel. -/
def is_start_line (markers : List String) (line : String) : Bool :=
  match strip_comment_head markers line with
  | some c => rust_trim c == "OMAKURE_SCHEMA_START"
  | none => false

/-- The line closes a block when scanning inside one. -/
def is_end_line (markers : List String) (line : String) : Bool :=
  match strip_comment_head markers line with
  | some c => rust_trim c == "OMAKURE_SCHEMA_END"
  | none => false

/-- Inside a block the line is consumed without ending the block: either a
commented line that is not the end sentinel (pushed to the buffer), or an
uncommented line that is blank (skipped). -/
def is_inblock_skip (markers : List String) (line : String) : Bool :=
  match strip_comment_head markers line with
  | some c => !(rust_trim c == "OMAKURE_SCHEMA_END")
  | none => rust_trim line == ""

theorem extract_go_cons_some (markers : List String) (line : String)
    (rest : List String) (idx : Nat) (inB : Bool) (buffer : String) (c : String)
    (hc : strip_comment_head markers line = some c) :
    extract_go markers (line :: rest) idx inB buffer =
      if inB = false ∧ rust_trim c = "OMAKURE_SCHEMA_START" then
        extract_go markers rest (idx + 1) true buffer
      else if inB = true ∧ rust_trim c = "OMAKURE_SCHEMA_END" then
        (if rust_trim buffer = "" then .error "Schema block is empty" else .ok buffer)
      else if inB = true then
        extract_go markers rest (idx + 1) inB (push_buffer buffer c)
      else extract_go markers rest (idx + 1) inB buffer := by
  show (match strip_comment_head markers line with
    | some commented =>
      if inB = false ∧ rust_trim commented = "OMAKURE_SCHEMA_START" then
        extract_go markers rest (idx + 1) true buffer
      else if inB = true ∧ rust_trim commented = "OMAKURE_SCHEMA_END" then
        (if rust_trim buffer = "" then .error "Schema block is empty" else .ok buffer)
      else if inB = true then
        extract_go markers rest (idx + 1) inB (push_buffer buffer commented)
      else extract_go markers rest (idx + 1) inB buffer
    | none =>
      if inB = true then
        if rust_trim line = "" then extract_go markers rest (idx + 1) inB buffer
        else
          .error ("Schema block line missing comment prefix at line " ++ toString (idx + 1))
      else extract_go markers rest (idx + 1) inB buffer) = _
  rw [hc]

theorem extract_go_cons_none (markers : List String) (line : String)
    (rest : List String) (idx : Nat) (inB : Bool) (buffer : String)
    (hc : strip_comment_head markers line = none) :
    extract_go markers (line :: rest) idx inB buffer =
      if inB = true then
        (if rust_trim line = "" then extract_go markers rest (idx + 1) inB buffer
         else
          .error ("Schema block line missing comment prefix at line " ++ toString (idx + 1)))
      else extract_go markers rest (idx + 1) inB buffer := by
  show (match strip_comment_head markers line with
    | some commented =>
      if inB = false ∧ rust_trim commented = "OMAKURE_SCHEMA_START" then
        extract_go markers rest (idx + 1) true buffer
      else if inB = true ∧ rust_trim commented = "OMAKURE_SCHEMA_END" then
        (if rust_trim buffer = "" then .error "Schema block is empty" else .ok buffer)
      else if inB = true then
        extract_go markers rest (idx + 1) inB (push_buffer buffer commented)
      else extract_go markers rest (idx + 1) inB buffer
    | none =>
      if inB = true then
        if rust_trim line = "" then extract_go markers rest (idx + 1) inB buffer
        else
          .error ("Schema block line missing comment prefix at line " ++ toString (idx + 1))
      else extract_go markers rest (idx + 1) inB buffer) = _
  rw [hc]

theorem extract_go_not_found (markers : List String) :
    ∀ (lines : List String) (idx : Nat) (buffer : String),
      (∀ l ∈ lines, is_start_line markers l = false) →
      extract_go markers lines idx false buffer = .error "Schema block not found" := by
  intro lines
  induction lines with
  | nil => intro idx buffer _; rfl
  | cons line rest ih =>
    intro idx buffer h
    have hl := h line (List.mem_cons_self line rest)
    have hrest := fun l hl => h l (List.mem_cons_of_mem line hl)
    cases hc : strip_comment_head markers line with
    | some c =>
      have hne : rust_trim c ≠ "OMAKURE_SCHEMA_START" := by
        simpa [is_start_line, hc] using hl
      rw [extract_go_cons_some markers line rest idx false buffer c hc,
          if_neg (show ¬(false = false ∧ rust_trim c = "OMAKURE_SCHEMA_START") from
            fun hand => hne hand.2),
          if_neg (show ¬(false = true ∧ rust_trim c = "OMAKURE_SCHEMA_END") from
            fun hand => Bool.noConfusion hand.1),
          if_neg (show ¬(false = true) from fun hand => Bool.noConfusion hand)]
      exact ih (idx + 1) buffer hrest
    | none =>
      rw [extract_go_cons_none markers line rest idx false buffer hc,
          if_neg (show ¬(false = true) from fun hand => Bool.noConfusion hand)]
      exact ih (idx + 1) buffer hrest

theorem extract_go_pre (markers : List String) :
    ∀ (pre : List String) (rest : List String) (idx : Nat) (buffer : String),
      (∀ l ∈ pre, is_start_line markers l = false) →
      extract_go markers (pre ++ rest) idx false buffer =
        extract_go markers rest (idx + pre.length) false buffer := by
  intro pre
  induction pre with
  | nil => intro rest idx buffer _; rfl
  | cons line pre' ih =>
    intro rest idx buffer h
    have hl := h line (List.mem_cons_self line pre')
    have hpre' := fun l hl => h l (List.mem_cons_of_mem line hl)
    show extract_go markers (line :: (pre' ++ rest)) idx false buffer = _
    cases hc : strip_comment_head markers line with
    | some c =>
      have hne : rust_trim c ≠ "OMAKURE_SCHEMA_START" := by
        simpa [is_start_line, hc] using hl
      rw [extract_go_cons_some markers line (pre' ++ rest) idx false buffer c hc,
          if_neg (show ¬(false = false ∧ rust_trim c = "OMAKURE_SCHEMA_START") from
            fun hand => hne hand.2),
          if_neg (show ¬(false = true ∧ rust_trim c = "OMAKURE_SCHEMA_END") from
            fun hand => Bool.noConfusion hand.1),
          if_neg (show ¬(false = true) from fun hand => Bool.noConfusion hand)]
      rw [ih rest (idx + 1) buffer hpre']
      rw [(by omega : idx + 1 + pre'.length = idx + (pre'.length + 1))]
      rfl
    | none =>
      rw [extract_go_cons_none markers line (pre' ++ rest) idx false buffer hc,
          if_neg (show ¬(false = true) from fun hand => Bool.noConfusion hand)]
      rw [ih rest (idx + 1) buffer hpre']
      rw [(by omega : idx + 1 + pre'.length = idx + (pre'.length + 1))]
      rfl

theorem extract_go_start (markers : List String) (s : String)
    (hs : is_start_line markers s = true) (rest : List String) (idx : Nat)
    (buffer : String) :
    extract_go markers (s :: rest) idx false buffer =
      extract_go markers rest (idx + 1) true buffer := by
  cases hc : strip_comment_head markers s with
  | some c =>
    have ht : rust_trim c = "OMAKURE_SCHEMA_START" := by
      simpa [is_start_line, hc] using hs
    rw [extract_go_cons_some markers s rest idx false buffer c hc,
        if_pos (show false = false ∧ rust_trim c = "OMAKURE_SCHEMA_START" from ⟨rfl, ht⟩)]
  | none => simp [is_start_line, hc] at hs

theorem extract_go_mid (markers : List String) :
    ∀ (mid : List String) (rest : List String) (idx : Nat) (buffer : String),
      (∀ l ∈ mid, is_inblock_skip markers l = true) →
      extract_go markers (mid ++ rest) idx true buffer =
        extract_go markers rest (idx + mid.length) true
          (fold_buffer buffer (mid.filterMap (strip_comment_head markers))) := by
  intro mid
  induction mid with
  | nil => intro rest idx buffer _; rfl
  | cons line mid' ih =>
    intro rest idx buffer h
    have hl := h line (List.mem_cons_self line mid')
    have hmid' := fun l hl => h l (List.mem_cons_of_mem line hl)
    show extract_go markers (line :: (mid' ++ rest)) idx true buffer = _
    cases hc : strip_comment_head markers line with
    | some c =>
      have hne : rust_trim c ≠ "OMAKURE_SCHEMA_END" := by
        simpa [is_inblock_skip, hc] using hl
      rw [extract_go_cons_some markers line (mid' ++ rest) idx true buffer c hc,
          if_neg (show ¬(true = false ∧ rust_trim c = "OMAKURE_SCHEMA_START") from
            fun hand => Bool.noConfusion hand.1),
          if_neg (show ¬(true = true ∧ rust_trim c = "OMAKURE_SCHEMA_END") from
            fun hand => hne hand.2),
          if_pos (show true = true from rfl)]
      rw [ih rest (idx + 1) (push_buffer buffer c) hmid']
      rw [(by omega : idx + 1 + mid'.length = idx + (mid'.length + 1))]
      rw [List.filterMap_cons, hc]
      rfl
    | none =>
      have hbl : rust_trim line = "" := by
        simpa [is_inblock_skip, hc] using hl
      rw [extract_go_cons_none markers line (mid' ++ rest) idx true buffer hc,
          if_pos (show true = true from rfl), if_pos hbl]
      rw [ih rest (idx + 1) buffer hmid']
      rw [(by omega : idx + 1 + mid'.length = idx + (mid'.length + 1))]
      rw [List.filterMap_cons, hc]
      rfl

theorem extract_go_end (markers : List String) (e : String)
    (he : is_end_line markers e = true) (rest : List String) (idx : Nat)
    (buffer : String) :
    extract_go markers (e :: rest) idx true buffer =
      if rust_trim buffer = "" then .error "Schema block is empty" else .ok buffer := by
  cases hc : strip_comment_head markers e with
  | some c =>
    have ht : rust_trim c = "OMAKURE_SCHEMA_END" := by
      simpa [is_end_line, hc] using he
    rw [extract_go_cons_some markers e rest idx true buffer c hc,
        if_neg (show ¬(true = false ∧ rust_trim c = "OMAKURE_SCHEMA_START") from
          fun hand => Bool.noConfusion hand.1),
        if_pos (show true = true ∧ rust_trim c = "OMAKURE_SCHEMA_END" from ⟨rfl, ht⟩)]
  | none => simp [is_end_line, hc] at he

theorem extract_go_bad (markers : List String) (bad : String)
    (h1 : strip_comment_head markers bad = none) (h2 : rust_trim bad ≠ "")
    (rest : List String) (idx : Nat) (buffer : String) :
    extract_go markers (bad :: rest) idx true buffer =
      .error ("Schema block line missing comment prefix at line " ++ toString (idx + 1)) := by
  rw [extract_go_cons_none markers bad rest idx true buffer h1,
      if_pos (show true = true from rfl), if_neg h2]

/-- C7 counterexample: a blank line sits between the sentinels and carries
no accepted comment prefix, yet extraction succeeds with the surrounding
commented text - the code skips blank uncommented lines rather than
failing on them, refuting "a line between the sentinels without an
accepted prefix makes extraction fail". -/
theorem c7_counterexample :
    extract_schema_block "# OMAKURE_SCHEMA_START\n# x\n\n# OMAKURE_SCHEMA_END" ["#"] =
      .ok "x" ∧
    rust_lines "# OMAKURE_SCHEMA_START\n# x\n\n# OMAKURE_SCHEMA_END" =
      ["# OMAKURE_SCHEMA_START", "# x", "", "# OMAKURE_SCHEMA_END"] ∧
    strip_comment_head ["#"] "" = none := by decide

/-- C7 (amended): over the file's lines, when `pre` contains no
start-sentinel line, `s` is one, and every line of `mid` is either a
commented non-end-sentinel line or a blank uncommented line: with an
end-sentinel line `e` after `mid`, extraction returns the accumulated
commented text of `mid` (newline-joined), or "Schema block is empty" when
that text trims to empty; a NONBLANK uncommented line after `mid` instead
fails naming its 1-based line number; no start sentinel at all, or a
started block that never ends, is "Schema block not found". -/
theorem c7_extract_block (markers : List String) (pre mid post : List String)
    (s e bad : String)
    (hpre : ∀ l ∈ pre, is_start_line markers l = false)
    (hs : is_start_line markers s = true)
    (hmid : ∀ l ∈ mid, is_inblock_skip markers l = true) :
    (is_end_line markers e = true →
      extract_schema_lines markers (pre ++ s :: mid ++ e :: post) =
        if rust_trim (fold_buffer "" (mid.filterMap (strip_comment_head markers))) = ""
        then .error "Schema block is empty"
        else .ok (fold_buffer "" (mid.filterMap (strip_comment_head markers)))) ∧
    (strip_comment_head markers bad = none → rust_trim bad ≠ "" →
      extract_schema_lines markers (pre ++ s :: mid ++ bad :: post) =
        .error ("Schema block line missing comment prefix at line " ++
          toString (pre.length + mid.length + 2))) ∧
    extract_schema_lines markers pre = .error "Schema block not found" ∧
    extract_schema_lines markers (pre ++ s :: mid) = .error "Schema block not found" := by
  unfold extract_schema_lines
  simp only [List.append_assoc, List.cons_append]
  refine ⟨?_, ?_, ?_, ?_⟩
  · intro he
    rw [extract_go_pre markers pre _ 0 "" hpre,
        extract_go_start markers s hs _ _ _,
        extract_go_mid markers mid (e :: post) _ "" hmid,
        extract_go_end markers e he _ _ _]
  · intro h1 h2
    rw [extract_go_pre markers pre _ 0 "" hpre,
        extract_go_start markers s hs _ _ _,
        extract_go_mid markers mid (bad :: post) _ "" hmid,
        extract_go_bad markers bad h1 h2 _ _ _]
    rw [(by omega : 0 + pre.length + 1 + mid.length + 1 = pre.length + mid.length + 2)]
  · exact extract_go_not_found markers pre 0 "" hpre
  · rw [extract_go_pre markers pre _ 0 "" hpre,
        extract_go_start markers s hs _ _ _]
    have hmid' : mid ++ ([] : List String) = mid := by simp
    rw [← hmid', extract_go_mid markers mid [] _ "" hmid]
    rfl

/-- Witness for C7's amended theorem at concrete lines. -/
theorem c7_extract_block_witness :
    (is_end_line ["#"] "# OMAKURE_SCHEMA_END" = true →
      extract_schema_lines ["#"]
          (["echo hi"] ++ "# OMAKURE_SCHEMA_START" :: ["# {}"] ++
            "# OMAKURE_SCHEMA_END" :: ["tail"]) =
        if rust_trim (fold_buffer ""
            (["# {}"].filterMap (strip_comment_head ["#"]))) = ""
        then .error "Schema block is empty"
        else .ok (fold_buffer "" (["# {}"].filterMap (strip_comment_head ["#"])))) ∧
    (strip_comment_head ["#"] "oops" = none → rust_trim "oops" ≠ "" →
      extract_schema_lines ["#"]
          (["echo hi"] ++ "# OMAKURE_SCHEMA_START" :: ["# {}"] ++ "oops" :: ["tail"]) =
        .error ("Schema block line missing comment prefix at line " ++ toString 4)) ∧
    extract_schema_lines ["#"] ["echo hi"] = .error "Schema block not found" ∧
    extract_schema_lines ["#"] (["echo hi"] ++ "# OMAKURE_SCHEMA_START" :: ["# {}"]) =
      .error "Schema block not found" := by
  have h := c7_extract_block ["#"] ["echo hi"] ["# {}"] ["tail"]
    "# OMAKURE_SCHEMA_START" "# OMAKURE_SCHEMA_END" "oops"
    (by decide) (by decide) (by decide)
  exact ⟨fun he => h.1 he, fun h1 h2 => h.2.1 h1 h2, h.2.2.1, h.2.2.2⟩

/-! ## Claim C1: the schema-resolution contract of `read_schema`
(`src/adapters/workspace_repository.rs`) -/

/-- `str::match_indices('{')` composed with slicing: the suffixes of the
text starting at each `{` occurrence, in order. -/
def brace_suffixes : List Char → List (List Char)
  | [] => []
  | c :: cs => if c = '{' then (c :: cs) :: brace_suffixes cs else brace_suffixes cs

/-- `parse_schema` from `src/domain/mod.rs`, parameterized by the external
crate's deserializer (`serde_json`'s `Schema::deserialize` reading a
prefix of the given text): accept the first `{`-suffix the deserializer
accepts. -/
def parse_schema (deser : String → Option Schema) (output : String) :
    Except String Schema :=
  match (brace_suffixes output.data).findSome? (fun l => deser (String.mk l)) with
  | some schema => .ok schema
  | none => .error "Schema JSON object not found in output"

/-- The outcome of running the script with `SCHEMA_MODE=1` set. -/
structure ExecOutput where
  success : Bool
  stdout : String
  stderr : String

/-- `read_schema` from `src/adapters/workspace_repository.rs` lines 89-99,
after the interpreter-availability checks: fail with the trimmed stderr
when the schema-mode run fails, else parse the run's stdout.  The script
file's own text never enters this computation. -/
def read_schema (deser : String → Option Schema) (out : ExecOutput) :
    Except String Schema :=
  if out.success then parse_schema deser out.stdout
  else .error ("Schema mode failed: " ++ rust_trim out.stderr)

/-- The spec's static-extraction contract, which C1 claims `read_schema`
implements: extract the comment-delimited block between the sentinels from
the file's contents, then parse it - no execution. -/
def read_schema_static (deser : String → Option Schema)
    (contents : String) (markers : List String) : Except String Schema :=
  match extract_schema_block contents markers with
  | .ok block => parse_schema deser block
  | .error e => .error e

/-- C1 counterexample: on an empty script file whose schema-mode execution
prints "x", `read_schema` reports the parse error of the execution output
while the static composition reports "Schema block not found" - the two
contracts disagree (here for the deserializer that accepts nothing; the
computation never consults the deserializer on these inputs). -/
theorem c1_counterexample :
    read_schema (fun _ => none) ⟨true, "x", ""⟩ ≠
      read_schema_static (fun _ => none) "" ["#"] ∧
    read_schema (fun _ => none) ⟨true, "x", ""⟩ =
      .error "Schema JSON object not found in output" ∧
    read_schema_static (fun _ => none) "" ["#"] =
      .error "Schema block not found" := by
  refine ⟨?_, rfl, rfl⟩
  intro h
  have h1 : read_schema (fun _ => none) ⟨true, "x", ""⟩ =
      .error "Schema JSON object not found in output" := rfl
  have h2 : read_schema_static (fun _ => none) "" ["#"] =
      .error "Schema block not found" := rfl
  rw [h1, h2] at h
  simp at h

/-- C1 (amended): `read_schema` implements the execution ("probe")
contract, not static extraction: when the schema-mode run succeeds it
equals `parse_schema` of the run's stdout, when it fails it reports the
trimmed stderr, and there are inputs on which it disagrees with the
static-extraction composition for EVERY deserializer. -/
theorem c1_read_schema_exec (deser : String → Option Schema) (out : ExecOutput) :
    (out.success = true → read_schema deser out = parse_schema deser out.stdout) ∧
    (out.success = false →
      read_schema deser out = .error ("Schema mode failed: " ++ rust_trim out.stderr)) ∧
    (∀ d : String → Option Schema,
      read_schema d ⟨true, "x", ""⟩ ≠ read_schema_static d "" ["#"]) := by
  refine ⟨fun h => by simp [read_schema, h], fun h => by simp [read_schema, h], ?_⟩
  intro d h
  have h1 : read_schema d ⟨true, "x", ""⟩ =
      .error "Schema JSON object not found in output" := rfl
  have h2 : read_schema_static d "" ["#"] = .error "Schema block not found" := rfl
  rw [h1, h2] at h
  simp at h

/-- Witness for C1's amended theorem at concrete execution outcomes. -/
theorem c1_read_schema_exec_witness :
    read_schema (fun _ => none) ⟨true, "x", ""⟩ =
      parse_schema (fun _ => none) "x" ∧
    read_schema (fun _ => none) ⟨false, "", " boom "⟩ =
      .error ("Schema mode failed: " ++ rust_trim " boom ") :=
  ⟨(c1_read_schema_exec (fun _ => none) ⟨true, "x", ""⟩).1 rfl,
   (c1_read_schema_exec (fun _ => none) ⟨false, "", " boom "⟩).2.1 rfl⟩

/-! ## Claim C10: environment defaults (`src/adapters/environments.rs`) -/

/-- The single-quote character (written numerically to keep source
punctuation uniform). -/
def squote : Char := Char.ofNat 39

/-- `strip_quotes`: remove one matching pair of surrounding double or
single quotes from the trimmed value. -/
def strip_quotes (value : String) : String :=
  let t := trim_chars value.data
  if 2 ≤ t.length ∧
      ((t.head? = some '"' ∧ t.getLast? = some '"') ∨
        (t.head? = some squote ∧ t.getLast? = some squote)) then
    String.mk (t.drop 1).dropLast
  else String.mk t

/-- The `splitn(2, '=')` / trim / quote-strip tail of the line loop,
applied after comment filtering and `export ` stripping. -/
def parse_env_kv (t : List Char) : Option (String × String) :=
  let keyPart := match t.findIdx? (fun c => c = '=') with
    | none => t
    | some i => t.take i
  let valPart := match t.findIdx? (fun c => c = '=') with
    | none => ([] : List Char)
    | some i => t.drop (i + 1)
  let key := trim_chars keyPart
  let rawValue := trim_chars valPart
  if key = [] then none
  else
    let value := trim_chars (strip_quotes (String.mk rawValue)).data
    if value = [] then none
    else some (ascii_lower (String.mk key), String.mk value)

/-- One iteration of `load_env_defaults`'s line loop: `none` when the line
contributes no entry, else the inserted pair
`(key.to_ascii_lowercase(), value)`. -/
def parse_env_line (line : String) : Option (String × String) :=
  let t := trim_chars line.data
  if t = [] ∨ t.head? = some '#' ∨ t.head? = some ';' then none
  else parse_env_kv (if "export ".data.isPrefixOf t then trim_chars (t.drop 7) else t)

/-- `HashMap::insert`: replace the value under an existing key, else
append. -/
def env_insert (m : List (String × String)) (k v : String) :
    List (String × String) :=
  if m.any (fun p => p.1 = k) then
    m.map (fun p => if p.1 = k then (k, v) else p)
  else m ++ [(k, v)]

/-- `load_env_defaults` over the file's lines. -/
def load_env_defaults (lines : List String) : List (String × String) :=
  lines.foldl (fun m line =>
    match parse_env_line line with
    | some (k, v) => env_insert m k v
    | none => m) []

theorem parse_env_kv_props (t : List Char) (k v : String)
    (h : parse_env_kv t = some (k, v)) :
    v ≠ "" ∧ ascii_lower k = k := by
  simp only [parse_env_kv] at h
  split at h
  · exact absurd h (by simp)
  · split at h
    · exact absurd h (by simp)
    · rename_i hval
      constructor
      · intro hc
        rw [hc] at h
        have hB := congrArg (fun x => Option.map Prod.snd x) h
        simp only [Option.map_some] at hB
        have hB' := Option.some_inj.mp hB
        apply hval
        simpa using congrArg String.data hB'
      · have hA := congrArg (fun x => Option.map Prod.fst x) h
        simp only [Option.map_some] at hA
        have hA' := Option.some_inj.mp hA
        have hA'' : (ascii_lower _ : String) = k := hA'
        rw [← hA'']
        exact ascii_lower_idem _

theorem parse_env_line_props (line : String) (k v : String)
    (h : parse_env_line line = some (k, v)) :
    v ≠ "" ∧ ascii_lower k = k := by
  simp only [parse_env_line] at h
  split at h
  · exact absurd h (by simp)
  · exact parse_env_kv_props _ k v h

theorem env_insert_mem (m : List (String × String)) (k v : String)
    (P : String × String → Prop) (hm : ∀ q ∈ m, P q) (hkv : P (k, v)) :
    ∀ p ∈ env_insert m k v, P p := by
  intro p hp
  unfold env_insert at hp
  split at hp
  · rcases List.mem_map.mp hp with ⟨q, hq, hpq⟩
    by_cases hqk : q.1 = k
    · rw [if_pos hqk] at hpq
      rw [hpq] at hkv
      exact hkv
    · rw [if_neg hqk] at hpq
      rw [← hpq]
      exact hm q hq
  · rcases List.mem_append.mp hp with hp | hp
    · exact hm p hp
    · rw [List.mem_singleton.mp hp]
      exact hkv

theorem load_env_fold_mem :
    ∀ (lines : List String) (m : List (String × String)),
      (∀ q ∈ m, q.2 ≠ "" ∧ ascii_lower q.1 = q.1) →
      ∀ p ∈ lines.foldl (fun m line =>
          match parse_env_line line with
          | some (k, v) => env_insert m k v
          | none => m) m,
        p.2 ≠ "" ∧ ascii_lower p.1 = p.1 := by
  intro lines
  induction lines with
  | nil => intro m hm p hp; exact hm p hp
  | cons line rest ih =>
    intro m hm p hp
    rw [List.foldl_cons] at hp
    cases hl : parse_env_line line with
    | none =>
      rw [hl] at hp
      exact ih m hm p hp
    | some kv =>
      rw [hl] at hp
      refine ih (env_insert m kv.1 kv.2) ?_ p hp
      exact env_insert_mem m kv.1 kv.2 _ hm (parse_env_line_props line kv.1 kv.2 (by rw [hl]))

def c10_quoted_empty_line : String := "KEY=" ++ String.mk [squote, squote]

/-- C10: every entry of the loaded defaults map has a non-empty value and
an already-lowercased key; lines whose value is empty after optional
quote-stripping and trimming (`KEY=` or `KEY=` followed by an empty quoted
string) are skipped entirely, so an empty environment value can never
pre-fill a form field. -/
theorem c10_env_defaults (lines : List String) (k v : String)
    (h : (k, v) ∈ load_env_defaults lines) :
    v ≠ "" ∧ ascii_lower k = k ∧
    parse_env_line "KEY=" = none ∧
    parse_env_line c10_quoted_empty_line = none ∧
    load_env_defaults ["KEY="] = [] ∧
    load_env_defaults [c10_quoted_empty_line] = [] := by
  have hp := load_env_fold_mem lines [] (by intro q hq; cases hq) (k, v) h
  exact ⟨hp.1, hp.2, by decide, by decide, by decide, by decide⟩

/-- Witness for C10 at a concrete environment file. -/
theorem c10_env_defaults_witness :
    ("Bar" : String) ≠ "" ∧ ascii_lower "foo" = "foo" ∧
    parse_env_line "KEY=" = none ∧
    parse_env_line c10_quoted_empty_line = none ∧
    load_env_defaults ["KEY="] = [] ∧
    load_env_defaults [c10_quoted_empty_line] = [] :=
  c10_env_defaults ["FOO=Bar"] "foo" "Bar" (by decide)

/-! ## Claim C6: search queries (`src/search_index.rs`) -/

/-- One row of the `script_index` table. -/
structure SearchRecord where
  script_path : String
  display_name : String
  description : Option String
  tags : Option String
  search_blob : String
  schema_error : Option String
  indexed_at : Int
  deriving DecidableEq, Repr

/-- `str::split_whitespace` (ASCII fragment): maximal non-whitespace
runs; `acc` holds the current token reversed. -/
def split_ws_go : List Char → List Char → List (List Char)
  | [], acc => if acc = [] then [] else [acc.reverse]
  | c :: cs, acc =>
    if c.isWhitespace then
      if acc = [] then split_ws_go cs [] else acc.reverse :: split_ws_go cs []
    else split_ws_go cs (c :: acc)

def split_ws (l : List Char) : List (List Char) := split_ws_go l []

/-- `split_query`: whitespace-tokenize, drop empties, lowercase. -/
def split_query (q : String) : List String :=
  ((split_ws q.data).map (fun t => ascii_lower (String.mk t))).filter (fun s => !(s == ""))

def bslash : Char := '\\'

/-- One `str::replace` pass with a single-character pattern. -/
def replace_char (target : Char) (repl : List Char) (l : List Char) : List Char :=
  l.flatMap (fun c => if c = target then repl else [c])

/-- `escape_like`: escape `\`, then `%`, then `_`. -/
def escape_like (s : String) : String :=
  String.mk (replace_char '_' [bslash, '_']
    (replace_char '%' [bslash, '%']
      (replace_char bslash [bslash, bslash] s.data)))

/-- The single-pass equivalent of the three `escape_like` passes. -/
def esc_char (c : Char) : List Char :=
  if c = bslash ∨ c = '%' ∨ c = '_' then [bslash, c] else [c]

def esc_chars (l : List Char) : List Char := l.flatMap esc_char

/-- SQLite folds ASCII upper case to lower case in `LIKE` and `NOCASE`
comparisons. -/
def fold_case (c : Char) : Char := Char.toLower c

/-- All suffixes of a list, longest first. -/
def suffixes : List Char → List (List Char)
  | [] => [[]]
  | c :: cs => (c :: cs) :: suffixes cs

/-- SQLite `LIKE ... ESCAPE '\'` pattern matching: `%` matches any run
(try every suffix), `_` any single character, `\` makes the next pattern
character literal, everything else compares ASCII-case-insensitively. -/
def like_match : List Char → List Char → Bool
  | [], text => text.isEmpty
  | p :: ps, text =>
    if p = '%' then (suffixes text).any (fun t => like_match ps t)
    else if p = bslash then
      match ps with
      | pc :: ps' =>
        match text with
        | t :: ts => (fold_case pc == fold_case t) && like_match ps' ts
        | [] => false
      | [] => false
    else if p = '_' then
      match text with
      | _ :: ts => like_match ps ts
      | [] => false
    else
      match text with
      | t :: ts => (fold_case p == fold_case t) && like_match ps ts
      | [] => false
  termination_by structural p _ => p

/-- Byte order on UTF-8 text coincides with code-point order; `NOCASE`
collation is this order after ASCII case folding. -/
def chars_le : List Char → List Char → Bool
  | [], _ => true
  | _ :: _, [] => false
  | a :: as, b :: bs => if a = b then chars_le as bs else decide (a < b)

/-- `ORDER BY display_name COLLATE NOCASE, script_path COLLATE NOCASE`. -/
def record_le (a b : SearchRecord) : Bool :=
  let an := a.display_name.data.map fold_case
  let bn := b.display_name.data.map fold_case
  if an = bn then
    chars_le (a.script_path.data.map fold_case) (b.script_path.data.map fold_case)
  else chars_le an bn

def insert_record (r : SearchRecord) : List SearchRecord → List SearchRecord
  | [] => [r]
  | x :: xs => if record_le r x then r :: x :: xs else x :: insert_record r xs

def sort_records : List SearchRecord → List SearchRecord
  | [] => []
  | r :: rs => insert_record r (sort_records rs)

/-- `SearchIndex::query` over an index state (the rows of `script_index`):
tokenize and lowercase the query; with no tokens select every row, else
keep the rows whose blob is `LIKE '%' ++ escaped token ++ '%'` for every
token; order by display name then path, `NOCASE`. -/
def query_model (rows : List SearchRecord) (q : String) : List SearchRecord :=
  let tokens := split_query q
  let kept := if tokens.isEmpty then rows
    else rows.filter (fun r => tokens.all (fun t =>
      like_match ('%' :: ((escape_like t).data ++ ['%'])) r.search_blob.data))
  sort_records kept

/-- `build_search_blob`: space-join path, name, description, tags and each
field's name/prompt/kind, then lowercase - every reachable index row's
blob is an `ascii_lower` image. -/
def build_search_blob (script_path display_name : String)
    (description : Option String) (tags : List String)
    (fields : List (String × Option String × String)) : String :=
  let parts := [script_path, display_name] ++ description.toList ++ tags ++
    fields.flatMap (fun f => [f.1] ++ f.2.1.toList ++ [f.2.2])
  ascii_lower (String.intercalate " " parts)

theorem build_search_blob_folded (p n : String) (d : Option String)
    (tags : List String) (fields : List (String × Option String × String)) :
    ∀ c ∈ (build_search_blob p n d tags fields).data, fold_case c = c := by
  intro c hc
  rcases List.mem_map.mp hc with ⟨x, _, rfl⟩
  exact toLower_toLower x

theorem perm_insert_record (r : SearchRecord) (l : List SearchRecord) :
    (insert_record r l).Perm (r :: l) := by
  induction l with
  | nil => exact List.Perm.refl _
  | cons x xs ih =>
    unfold insert_record
    by_cases h : record_le r x = true
    · rw [if_pos h]
    · rw [if_neg h]
      exact (ih.cons x).trans (List.Perm.swap r x xs)

theorem perm_sort_records (l : List SearchRecord) : (sort_records l).Perm l := by
  induction l with
  | nil => exact List.Perm.refl _
  | cons r rs ih => exact (perm_insert_record r (sort_records rs)).trans (ih.cons r)

theorem chars_le_total : ∀ a b : List Char, chars_le a b = true ∨ chars_le b a = true := by
  intro a
  induction a with
  | nil => intro b; exact Or.inl rfl
  | cons x xs ih =>
    intro b
    cases b with
    | nil => exact Or.inr rfl
    | cons y ys =>
      by_cases hxy : x = y
      · subst hxy
        rcases ih ys with h | h
        · exact Or.inl (by simp [chars_le, h])
        · exact Or.inr (by simp [chars_le, h])
      · rcases lt_or_gt_of_ne hxy with h | h
        · exact Or.inl (by simp [chars_le, hxy, h])
        · exact Or.inr (by simp [chars_le, Ne.symm hxy, h])

theorem chars_le_trans : ∀ {a b c : List Char},
    chars_le a b = true → chars_le b c = true → chars_le a c = true := by
  intro a
  induction a with
  | nil => intro b c _ _; rfl
  | cons x xs ih =>
    intro b c hab hbc
    cases b with
    | nil => exact absurd hab (by simp [chars_le])
    | cons y ys =>
      cases c with
      | nil => exact absurd hbc (by simp [chars_le])
      | cons z zs =>
        by_cases hxy : x = y
        · subst hxy
          by_cases hyz : x = z
          · subst hyz
            simp only [chars_le, if_pos rfl] at hab hbc ⊢
            exact ih hab hbc
          · simp only [chars_le, if_pos rfl] at hab
            simp only [chars_le, if_neg hyz] at hbc ⊢
            exact hbc
        · simp only [chars_le, if_neg hxy] at hab
          have hlt1 : x < y := by simpa using hab
          by_cases hyz : y = z
          · subst hyz
            simp only [chars_le, if_neg hxy]
            simpa using hlt1
          · simp only [chars_le, if_neg hyz] at hbc
            have hlt2 : y < z := by simpa using hbc
            have hlt : x < z := lt_trans hlt1 hlt2
            simp only [chars_le, if_neg (ne_of_lt hlt)]
            simpa using hlt

theorem chars_le_antisymm : ∀ {a b : List Char},
    chars_le a b = true → chars_le b a = true → a = b := by
  intro a
  induction a with
  | nil =>
    intro b _ hba
    cases b with
    | nil => rfl
    | cons y ys => exact absurd hba (by simp [chars_le])
  | cons x xs ih =>
    intro b hab hba
    cases b with
    | nil => exact absurd hab (by simp [chars_le])
    | cons y ys =>
      by_cases hxy : x = y
      · subst hxy
        simp only [chars_le, if_pos rfl] at hab hba
        rw [ih hab hba]
      · simp only [chars_le, if_neg hxy, if_neg (Ne.symm hxy)] at hab hba
        have h1 : x < y := by simpa using hab
        have h2 : y < x := by simpa using hba
        exact absurd h2 (not_lt_of_gt h1)

theorem record_le_trans {a b c : SearchRecord}
    (hab : record_le a b = true) (hbc : record_le b c = true) :
    record_le a c = true := by
  unfold record_le at hab hbc ⊢
  by_cases h1 : a.display_name.data.map fold_case = b.display_name.data.map fold_case
  · rw [if_pos h1] at hab
    by_cases h2 : b.display_name.data.map fold_case = c.display_name.data.map fold_case
    · rw [if_pos h2] at hbc
      rw [if_pos (h1.trans h2)]
      exact chars_le_trans hab hbc
    · rw [if_neg h2] at hbc
      rw [if_neg (fun hc => h2 (h1.symm.trans hc)), h1]
      exact hbc
  · rw [if_neg h1] at hab
    by_cases h2 : b.display_name.data.map fold_case = c.display_name.data.map fold_case
    · rw [if_pos h2] at hbc
      rw [if_neg (fun hc => h1 (hc.trans h2.symm)), ← h2]
      exact hab
    · rw [if_neg h2] at hbc
      have hne : a.display_name.data.map fold_case ≠ c.display_name.data.map fold_case := by
        intro hc
        exact h1 (chars_le_antisymm hab (hc ▸ hbc))
      rw [if_neg hne]
      exact chars_le_trans hab hbc

theorem record_le_total (a b : SearchRecord) :
    record_le a b = true ∨ record_le b a = true := by
  unfold record_le
  by_cases h : a.display_name.data.map fold_case = b.display_name.data.map fold_case
  · rw [if_pos h, if_pos h.symm]
    exact chars_le_total _ _
  · rw [if_neg h, if_neg (fun hc => h hc.symm)]
    exact chars_le_total _ _

theorem pairwise_insert_record (r : SearchRecord) (l : List SearchRecord)
    (h : l.Pairwise (fun a b => record_le a b = true)) :
    (insert_record r l).Pairwise (fun a b => record_le a b = true) := by
  induction l with
  | nil => simp [insert_record]
  | cons x xs ih =>
    rcases List.pairwise_cons.mp h with ⟨hx, hxs⟩
    unfold insert_record
    by_cases hrx : record_le r x = true
    · rw [if_pos hrx]
      refine List.pairwise_cons.mpr ⟨?_, h⟩
      intro y hy
      rcases List.mem_cons.mp hy with rfl | hy
      · exact hrx
      · exact record_le_trans hrx (hx y hy)
    · rw [if_neg hrx]
      refine List.pairwise_cons.mpr ⟨?_, ih hxs⟩
      intro y hy
      rcases List.mem_cons.mp ((perm_insert_record r xs).mem_iff.mp hy) with rfl | hy
      · rcases record_le_total x y with h' | h'
        · exact h'
        · exact absurd h' hrx
      · exact hx y hy

theorem pairwise_sort_records (l : List SearchRecord) :
    (sort_records l).Pairwise (fun a b => record_le a b = true) := by
  induction l with
  | nil => simp [sort_records]
  | cons r rs ih => exact pairwise_insert_record r (sort_records rs) ih

theorem mem_suffixes (l : List Char) : ∀ s, s ∈ suffixes l ↔ s <:+ l := by
  induction l with
  | nil =>
    intro s
    simp only [suffixes, List.mem_singleton]
    constructor
    · rintro rfl; exact List.nil_suffix
    · intro hs; simpa using List.suffix_nil.mp hs
  | cons c cs ih =>
    intro s
    simp only [suffixes, List.mem_cons]
    constructor
    · rintro (rfl | hs)
      · exact List.suffix_refl _
      · exact ((ih s).mp hs).trans (List.suffix_cons c cs)
    · intro hs
      rcases List.suffix_cons_iff.mp hs with rfl | hs
      · exact Or.inl rfl
      · exact Or.inr ((ih s).mpr hs)

theorem like_match_pct (ps text : List Char) :
    like_match ('%' :: ps) text = (suffixes text).any (fun t => like_match ps t) := by
  rw [like_match.eq_def]
  dsimp only
  rw [if_pos rfl]

theorem like_match_esc_cons (pc t : Char) (ps' ts : List Char) :
    like_match (bslash :: pc :: ps') (t :: ts) =
      ((fold_case pc == fold_case t) && like_match ps' ts) := rfl

theorem like_match_esc_nil (pc : Char) (ps' : List Char) :
    like_match (bslash :: pc :: ps') [] = false := rfl

theorem like_match_plain_cons (p t : Char) (ps ts : List Char)
    (h1 : p ≠ '%') (h2 : p ≠ bslash) (h3 : p ≠ '_') :
    like_match (p :: ps) (t :: ts) =
      ((fold_case p == fold_case t) && like_match ps ts) := by
  rw [like_match.eq_def]
  dsimp only
  rw [if_neg h1, if_neg h2, if_neg h3]

theorem like_match_plain_nil (p : Char) (ps : List Char)
    (h1 : p ≠ '%') (h2 : p ≠ bslash) (h3 : p ≠ '_') :
    like_match (p :: ps) [] = false := by
  rw [like_match.eq_def]
  dsimp only
  rw [if_neg h1, if_neg h2, if_neg h3]

theorem like_pct_any (text : List Char) : like_match ['%'] text = true := by
  rw [like_match_pct, List.any_eq_true]
  exact ⟨[], (mem_suffixes text []).mpr List.nil_suffix, rfl⟩

theorem esc_chars_cons (c : Char) (l : List Char) :
    esc_chars (c :: l) = esc_char c ++ esc_chars l := rfl

theorem like_esc_cons_aux (c : Char) (P Q : List Char → Bool)
    (ps Lmap : List Char)
    (ih : ∀ text, Q text = true ↔
      ∃ u w, text = u ++ w ∧ u.map fold_case = Lmap ∧ like_match ps w = true)
    (hstep : ∀ t ts, P (t :: ts) = ((fold_case c == fold_case t) && Q ts))
    (hnil : P [] = false) :
    ∀ text, P text = true ↔
      ∃ u w, text = u ++ w ∧ u.map fold_case = fold_case c :: Lmap ∧
        like_match ps w = true := by
  intro text
  constructor
  · intro h
    cases text with
    | nil => rw [hnil] at h; exact absurd h (by simp)
    | cons t ts =>
      rw [hstep, Bool.and_eq_true] at h
      rcases h with ⟨hct, hq⟩
      rcases (ih ts).mp hq with ⟨u, w, rfl, hmap, hps⟩
      refine ⟨t :: u, w, rfl, ?_, hps⟩
      rw [List.map_cons, hmap]
      have hce : fold_case c = fold_case t := by simpa using hct
      rw [hce]
  · rintro ⟨u, w, htext, hmap, hps⟩
    cases u with
    | nil => simp at hmap
    | cons t u' =>
      rw [List.map_cons] at hmap
      injection hmap with h1 h2
      subst htext
      rw [List.cons_append, hstep, Bool.and_eq_true]
      refine ⟨?_, (ih _).mpr ⟨u', w, rfl, h2, hps⟩⟩
      simp [h1]

theorem like_esc (ps : List Char) :
    ∀ (L text : List Char),
      like_match (esc_chars L ++ ps) text = true ↔
        ∃ u w, text = u ++ w ∧ u.map fold_case = L.map fold_case ∧
          like_match ps w = true := by
  intro L
  induction L with
  | nil =>
    intro text
    simp only [esc_chars, List.flatMap_nil, List.nil_append, List.map_nil]
    constructor
    · intro h
      exact ⟨[], text, rfl, rfl, h⟩
    · rintro ⟨u, w, rfl, hmap, hps⟩
      have hu : u = [] := List.map_eq_nil_iff.mp hmap
      subst hu
      simpa using hps
  | cons c L' ih =>
    by_cases hc : c = bslash ∨ c = '%' ∨ c = '_'
    · have hpat : esc_chars (c :: L') ++ ps = bslash :: c :: (esc_chars L' ++ ps) := by
        rw [esc_chars_cons]
        unfold esc_char
        rw [if_pos hc]
        rfl
      have hstep : ∀ t ts, like_match (esc_chars (c :: L') ++ ps) (t :: ts) =
          ((fold_case c == fold_case t) && like_match (esc_chars L' ++ ps) ts) := by
        intro t ts
        rw [hpat]
        exact like_match_esc_cons c t (esc_chars L' ++ ps) ts
      have hnil : like_match (esc_chars (c :: L') ++ ps) [] = false := by
        rw [hpat]
        exact like_match_esc_nil c (esc_chars L' ++ ps)
      intro text
      rw [List.map_cons]
      exact like_esc_cons_aux c _ _ ps (L'.map fold_case) ih hstep hnil text
    · push_neg at hc
      rcases hc with ⟨hcb, hcp, hcu⟩
      have hpat : esc_chars (c :: L') ++ ps = c :: (esc_chars L' ++ ps) := by
        rw [esc_chars_cons]
        unfold esc_char
        rw [if_neg (by tauto)]
        rfl
      have hstep : ∀ t ts, like_match (esc_chars (c :: L') ++ ps) (t :: ts) =
          ((fold_case c == fold_case t) && like_match (esc_chars L' ++ ps) ts) := by
        intro t ts
        rw [hpat]
        exact like_match_plain_cons c t (esc_chars L' ++ ps) ts hcp hcb hcu
      have hnil : like_match (esc_chars (c :: L') ++ ps) [] = false := by
        rw [hpat]
        exact like_match_plain_nil c (esc_chars L' ++ ps) hcp hcb hcu
      intro text
      rw [List.map_cons]
      exact like_esc_cons_aux c _ _ ps (L'.map fold_case) ih hstep hnil text

theorem like_pct_wrap (L s : List Char) :
    like_match ('%' :: (esc_chars L ++ ['%'])) s = true ↔
      ∃ t1 t2 t3, s = t1 ++ t2 ++ t3 ∧ t2.map fold_case = L.map fold_case := by
  rw [like_match_pct, List.any_eq_true]
  constructor
  · rintro ⟨suf, hmem, hlike⟩
    rcases (mem_suffixes s suf).mp hmem with ⟨t1, rfl⟩
    rcases (like_esc ['%'] L suf).mp hlike with ⟨u, w, rfl, hmap, _⟩
    exact ⟨t1, u, w, by rw [List.append_assoc], hmap⟩
  · rintro ⟨t1, t2, t3, rfl, hmap⟩
    refine ⟨t2 ++ t3, (mem_suffixes _ _).mpr ⟨t1, by rw [List.append_assoc]⟩, ?_⟩
    exact (like_esc ['%'] L (t2 ++ t3)).mpr ⟨t2, t3, rfl, hmap, like_pct_any t3⟩

theorem map_fold_self (l : List Char) (h : ∀ c ∈ l, fold_case c = c) :
    l.map fold_case = l := by
  induction l with
  | nil => rfl
  | cons c cs ih =>
    rw [List.map_cons, h c (List.mem_cons_self c cs),
      ih (fun x hx => h x (List.mem_cons_of_mem c hx))]

theorem like_contains (t s : List Char)
    (ht : ∀ c ∈ t, fold_case c = c) (hs : ∀ c ∈ s, fold_case c = c) :
    like_match ('%' :: (esc_chars t ++ ['%'])) s = true ↔ t <:+: s := by
  rw [like_pct_wrap]
  constructor
  · rintro ⟨t1, t2, t3, rfl, hmap⟩
    have h2 : ∀ c ∈ t2, fold_case c = c := by
      intro c hc
      exact hs c (by simp [hc])
    have ht2 : t2 = t := by
      rw [← map_fold_self t2 h2, hmap, map_fold_self t ht]
    exact ⟨t1, t3, by rw [ht2, List.append_assoc]⟩
  · rintro ⟨t1, t3, rfl⟩
    exact ⟨t1, t, t3, by rw [List.append_assoc], rfl⟩

theorem replace_char_append (t : Char) (r l1 l2 : List Char) :
    replace_char t r (l1 ++ l2) = replace_char t r l1 ++ replace_char t r l2 := by
  simp [replace_char, List.flatMap_append]

theorem three_pass_eq (l : List Char) :
    replace_char '_' [bslash, '_'] (replace_char '%' [bslash, '%']
      (replace_char bslash [bslash, bslash] l)) = esc_chars l := by
  induction l with
  | nil => rfl
  | cons c cs ih =>
    rw [show replace_char bslash [bslash, bslash] (c :: cs) =
        (if c = bslash then [bslash, bslash] else [c]) ++
          replace_char bslash [bslash, bslash] cs from rfl,
      replace_char_append, replace_char_append, ih]
    rw [show esc_chars (c :: cs) = esc_char c ++ esc_chars cs from rfl]
    congr 1
    by_cases h1 : c = bslash
    · subst h1
      rfl
    · by_cases h2 : c = '%'
      · subst h2
        rfl
      · by_cases h3 : c = '_'
        · subst h3
          rfl
        · simp [replace_char, esc_char, h1, h2, h3]

theorem escape_like_data (s : String) : (escape_like s).data = esc_chars s.data :=
  three_pass_eq s.data

theorem all_congr {α : Type} (l : List α) (p q' : α → Bool)
    (h : ∀ a ∈ l, p a = q' a) : l.all p = l.all q' := by
  induction l with
  | nil => rfl
  | cons a as ih =>
    rw [List.all_cons, List.all_cons, h a (List.mem_cons_self a as),
      ih (fun x hx => h x (List.mem_cons_of_mem a hx))]

/-- C6: over an index state whose search blobs are ASCII-case-folded (as
`build_search_blob` guarantees for every indexed row) and any query
string: a query with no whitespace tokens returns every record; a query
with tokens returns exactly the records whose blob contains every
lowercased token as a plain substring - the wildcard characters `%`, `_`,
`\` in a token are matched literally, never as patterns; and the result is
always ordered by display name then script path, case-insensitively. -/
theorem c6_query (rows : List SearchRecord) (q : String)
    (hblob : ∀ r ∈ rows, ∀ c ∈ r.search_blob.data, fold_case c = c) :
    (split_query q = [] → (query_model rows q).Perm rows) ∧
    (split_query q ≠ [] →
      (query_model rows q).Perm (rows.filter (fun r => (split_query q).all
        (fun t => decide (t.data <:+: r.search_blob.data))))) ∧
    (query_model rows q).Pairwise (fun a b => record_le a b = true) := by
  have htok : ∀ t ∈ split_query q, ∀ c ∈ t.data, fold_case c = c := by
    intro t ht c hc
    rcases List.mem_filter.mp ht with ⟨ht', _⟩
    rcases List.mem_map.mp ht' with ⟨tok, _, rfl⟩
    rcases List.mem_map.mp hc with ⟨x, _, rfl⟩
    exact toLower_toLower x
  have hptwise : ∀ r ∈ rows,
      ((split_query q).all (fun t =>
        like_match ('%' :: ((escape_like t).data ++ ['%'])) r.search_blob.data)) =
      ((split_query q).all (fun t => decide (t.data <:+: r.search_blob.data))) := by
    intro r hr
    apply all_congr
    intro t ht
    rw [escape_like_data]
    have hiff := like_contains t.data r.search_blob.data (htok t ht) (hblob r hr)
    by_cases hin : t.data <:+: r.search_blob.data
    · rw [decide_eq_true hin]
      exact hiff.mpr hin
    · rw [decide_eq_false hin]
      cases hlm : like_match ('%' :: (esc_chars t.data ++ ['%'])) r.search_blob.data with
      | true => exact absurd (hiff.mp hlm) hin
      | false => rfl
  refine ⟨?_, ?_, ?_⟩
  · intro h0
    simp only [query_model]
    rw [h0]
    simp only [List.isEmpty_nil, if_pos rfl]
    exact perm_sort_records rows
  · intro hne
    simp only [query_model]
    rw [if_neg (fun hc => hne (List.isEmpty_iff.mp hc))]
    rw [List.filter_congr hptwise]
    exact perm_sort_records _
  · simp only [query_model]
    exact pairwise_sort_records _

def c6_r1 : SearchRecord := ⟨"a.sh", "Alpha", none, none, "a.sh alpha deploy", none, 0⟩
def c6_r2 : SearchRecord := ⟨"b.sh", "Beta", none, none, "b.sh beta cleanup", none, 0⟩

/-- Witness for C6 at a concrete two-record index. -/
theorem c6_query_witness :
    (split_query "Alpha" = [] → (query_model [c6_r1, c6_r2] "Alpha").Perm [c6_r1, c6_r2]) ∧
    (split_query "Alpha" ≠ [] →
      (query_model [c6_r1, c6_r2] "Alpha").Perm ([c6_r1, c6_r2].filter
        (fun r => (split_query "Alpha").all
          (fun t => decide (t.data <:+: r.search_blob.data))))) ∧
    (query_model [c6_r1, c6_r2] "Alpha").Pairwise (fun a b => record_le a b = true) :=
  c6_query [c6_r1, c6_r2] "Alpha" (by decide)

end Omakure
